import Mathlib

/-!
Verification development for the Oppia deployment script
(`scripts/deploy.py`).  The script is embedded shallowly: strings are
lists of characters, the filesystem is an explicit record of
directories and file contents, external subprocesses are an oracle from
command to success, and each Python function of the script is mirrored
by a Lean definition of the same name (modulo naming rules).
-/

set_option maxRecDepth 10000

/-- Characters of a Python string. -/
abbrev Str := List Char

/-- An absolute filesystem path, as a list of name segments. -/
abbrev FsPath := List Str

/-! ### Generic string scanning primitives (Python `str` operations) -/

/-- `leadsWith p s` is true when `p` is an initial segment of `s`
(Python `s.startswith(p)`). -/
def leadsWith [DecidableEq α] : List α → List α → Bool
  | [], _ => true
  | _ :: _, [] => false
  | a :: as, b :: bs => decide (a = b) && leadsWith as bs

/-- `hasOccur pat s` is true when `pat` occurs as a contiguous substring
of `s` (Python `pat in s`). -/
def hasOccur [DecidableEq α] (pat : List α) : List α → Bool
  | [] => pat.isEmpty
  | b :: bs => leadsWith pat (b :: bs) || hasOccur pat bs

/-- Fuel-driven core of Python's `str.replace`: scan left to right and
replace each leftmost non-overlapping occurrence of `pat` by `rep`.
The fuel is an upper bound on the scanned length, so that the
definition is structurally recursive and kernel-reducible. -/
def pyReplaceAux [DecidableEq α] (pat rep : List α) : Nat → List α → List α
  | 0, s => s
  | _ + 1, [] => []
  | n + 1, b :: bs =>
    if leadsWith pat (b :: bs) then
      rep ++ pyReplaceAux pat rep n (bs.drop (pat.length - 1))
    else
      b :: pyReplaceAux pat rep n bs

/-- Python `s.replace(pat, rep)` for a non-empty `pat`. -/
def pyReplace [DecidableEq α] (pat rep s : List α) : List α :=
  pyReplaceAux pat rep s.length s

/-- The segments of `s` lying between the leftmost non-overlapping
occurrences of `pat`, in order (the same scan as `pyReplaceAux`). -/
def splitTok [DecidableEq α] (pat : List α) : Nat → List α → List (List α)
  | 0, s => [s]
  | _ + 1, [] => [[]]
  | n + 1, b :: bs =>
    if leadsWith pat (b :: bs) then
      [] :: splitTok pat n (bs.drop (pat.length - 1))
    else
      match splitTok pat n bs with
      | [] => [[b]]
      | seg :: rest => (b :: seg) :: rest

/-- Join a list of segments, separating consecutive segments by `sep`. -/
def joinBy (sep : List α) : List (List α) → List α
  | [] => []
  | [g] => g
  | g :: gs => g ++ sep ++ joinBy sep gs

/-! ### Characterisations of the scanning primitives -/

theorem leadsWith_iff [DecidableEq α] (p s : List α) :
    leadsWith p s = true ↔ ∃ v, s = p ++ v := by
  induction p generalizing s with
  | nil => simp [leadsWith]
  | cons a as ih =>
    cases s with
    | nil => simp [leadsWith]
    | cons b bs =>
      simp only [leadsWith, Bool.and_eq_true, decide_eq_true_eq, ih]
      constructor
      · rintro ⟨rfl, v, rfl⟩; exact ⟨v, rfl⟩
      · rintro ⟨v, hv⟩
        injection hv with h1 h2
        exact ⟨h1.symm, v, h2⟩

theorem hasOccur_iff [DecidableEq α] (pat s : List α) :
    hasOccur pat s = true ↔ ∃ u v, s = u ++ pat ++ v := by
  induction s with
  | nil =>
    simp only [hasOccur, List.isEmpty_iff]
    constructor
    · rintro rfl; exact ⟨[], [], rfl⟩
    · rintro ⟨u, v, huv⟩
      have h := congrArg List.length huv
      simp only [List.length_nil, List.length_append] at h
      have hp : pat.length = 0 := by omega
      exact List.length_eq_zero.mp hp
  | cons b bs ih =>
    simp only [hasOccur, Bool.or_eq_true, leadsWith_iff, ih]
    constructor
    · rintro (⟨v, hv⟩ | ⟨u, v, rfl⟩)
      · exact ⟨[], v, by simpa using hv⟩
      · exact ⟨b :: u, v, rfl⟩
    · rintro ⟨u, v, huv⟩
      cases u with
      | nil => exact Or.inl ⟨v, by simpa using huv⟩
      | cons x xs =>
        injection huv with h1 h2
        exact Or.inr ⟨xs, v, h2⟩

/-- Splitting a prefix relation across an append: an initial segment of
`a ++ b` either sits inside `a` or extends `a` into `b`. -/
theorem pref_append_split {q a b : List α} (h : ∃ v, a ++ b = q ++ v) :
    (∃ v, a = q ++ v) ∨ ∃ q2, q = a ++ q2 ∧ ∃ v, b = q2 ++ v := by
  induction a generalizing q with
  | nil => right; exact ⟨q, rfl, by simpa using h⟩
  | cons x xs ih =>
    cases q with
    | nil => left; exact ⟨x :: xs, rfl⟩
    | cons y ys =>
      obtain ⟨v, hv⟩ := h
      injection hv with h1 h2
      subst h1
      obtain ⟨w, hw⟩ | ⟨q2, hq2, w, hw⟩ := ih ⟨v, h2⟩
      · left; exact ⟨w, by rw [List.cons_append, ← hw]⟩
      · right; exact ⟨q2, by rw [List.cons_append, ← hq2], w, hw⟩

/-- Splitting an occurrence across an append: an occurrence of `pat`
inside `a ++ b` lies inside `a`, lies inside `b`, or straddles the
boundary, splitting `pat` into a nonempty suffix of `a` and a nonempty
initial segment of `b`. -/
theorem occur_append_split {pat a b : List α} (h : ∃ u v, a ++ b = u ++ pat ++ v) :
    (∃ u v, a = u ++ pat ++ v) ∨ (∃ u v, b = u ++ pat ++ v) ∨
    ∃ p1 p2, pat = p1 ++ p2 ∧ p1 ≠ [] ∧ p2 ≠ [] ∧
      (∃ u, a = u ++ p1) ∧ (∃ v, b = p2 ++ v) := by
  induction a with
  | nil => right; left; simpa using h
  | cons x xs ih =>
    obtain ⟨u, v, huv⟩ := h
    cases u with
    | nil =>
      cases pat with
      | nil => left; exact ⟨[], x :: xs, by simp⟩
      | cons p ps =>
        simp only [List.nil_append, List.cons_append] at huv
        injection huv with h1 h2
        subst h1
        obtain ⟨w, hw⟩ | ⟨q2, hq2, w, hw⟩ := pref_append_split ⟨v, h2⟩
        · left
          exact ⟨[], w, by rw [List.nil_append, List.cons_append, ← hw]⟩
        · by_cases hq : q2 = []
          · subst hq
            left
            refine ⟨[], [], ?_⟩
            simp [hq2]
          · right; right
            refine ⟨x :: xs, q2, ?_, by simp, hq, ⟨[], rfl⟩, ⟨w, hw⟩⟩
            rw [List.cons_append, ← hq2]
    | cons y ys =>
      simp only [List.cons_append] at huv
      injection huv with h1 h2
      subst h1
      obtain h3 | h3 | ⟨p1, p2, hp, hp1, hp2, ⟨u2, hu2⟩, hv2⟩ := ih ⟨ys, v, h2⟩
      · obtain ⟨u3, v3, h4⟩ := h3
        left; exact ⟨x :: u3, v3, by rw [h4]; simp⟩
      · right; left; exact h3
      · right; right
        exact ⟨p1, p2, hp, hp1, hp2, ⟨x :: u2, by rw [hu2]; simp⟩, hv2⟩

/-- The conditions under which replacing `pat` by `rep` can never
manufacture a fresh occurrence of `pat`: `pat` does not occur in `rep`,
`rep` does not occur in `pat`, no nonempty suffix of `rep` is a proper
initial segment of `pat`, and no nonempty initial segment of `rep` is a
proper suffix of `pat`. -/
def SafeRep (pat rep : List α) : Prop :=
  (∀ u v, rep ≠ u ++ pat ++ v) ∧
  (∀ u v, pat ≠ u ++ rep ++ v) ∧
  (∀ p1 p2 u, p1 ≠ [] → p2 ≠ [] → pat = p1 ++ p2 → rep = u ++ p1 → False) ∧
  (∀ q u w, q ≠ [] → u ≠ [] → pat = u ++ q → rep = q ++ w → False)

/-- Executable check for `SafeRep`. -/
def junctionSafe [DecidableEq α] (pat rep : List α) : Bool :=
  !hasOccur pat rep && !hasOccur rep pat &&
  (List.range pat.length).all fun k =>
    decide (k = 0) || decide (rep.length < k) ||
      (!decide (rep.drop (rep.length - k) = pat.take k) &&
       !decide (rep.take k = pat.drop (pat.length - k)))

theorem junctionSafe_safe [DecidableEq α] {pat rep : List α}
    (h : junctionSafe pat rep = true) : SafeRep pat rep := by
  simp only [junctionSafe, Bool.and_eq_true, Bool.not_eq_true'] at h
  obtain ⟨⟨hno1, hno2⟩, hall⟩ := h
  have hrange : ∀ k, k < pat.length → k = 0 ∨ rep.length < k ∨
      (¬ rep.drop (rep.length - k) = pat.take k ∧
       ¬ rep.take k = pat.drop (pat.length - k)) := by
    intro k hk
    have h' := List.all_eq_true.mp hall k (List.mem_range.mpr hk)
    simp only [Bool.or_eq_true, Bool.and_eq_true, Bool.not_eq_true',
      decide_eq_true_eq, decide_eq_false_iff_not] at h'
    tauto
  refine ⟨?_, ?_, ?_, ?_⟩
  · intro u v huv
    have : hasOccur pat rep = true := (hasOccur_iff pat rep).mpr ⟨u, v, huv⟩
    rw [hno1] at this; exact Bool.false_ne_true this
  · intro u v huv
    have : hasOccur rep pat = true := (hasOccur_iff rep pat).mpr ⟨u, v, huv⟩
    rw [hno2] at this; exact Bool.false_ne_true this
  · intro p1 p2 u hp1 hp2 hpat hrep
    have hk : p1.length < pat.length := by
      rw [hpat, List.length_append]
      cases p2 with
      | nil => exact absurd rfl hp2
      | cons c cs => simp
    have h0 : ¬ p1.length = 0 := by
      simpa using List.length_pos.mpr hp1 |>.ne'
    have hle : ¬ rep.length < p1.length := by
      rw [hrep, List.length_append]; omega
    have hcase := hrange p1.length hk
    rcases hcase with h' | h' | ⟨hA, _⟩
    · exact h0 h'
    · exact hle h'
    · apply hA
      have e1 : rep.drop (rep.length - p1.length) = p1 := by
        rw [hrep]
        have : (u ++ p1).length - p1.length = u.length := by
          rw [List.length_append]; omega
        rw [this, List.drop_left]
      have e2 : pat.take p1.length = p1 := by
        rw [hpat, List.take_left]
      rw [e1, e2]
  · intro q u w hq hu hpat hrep
    have hk : q.length < pat.length := by
      rw [hpat, List.length_append]
      cases u with
      | nil => exact absurd rfl hu
      | cons c cs => simp
    have h0 : ¬ q.length = 0 := by
      simpa using List.length_pos.mpr hq |>.ne'
    have hle : ¬ rep.length < q.length := by
      rw [hrep, List.length_append]; omega
    have hcase := hrange q.length hk
    rcases hcase with h' | h' | ⟨_, hB⟩
    · exact h0 h'
    · exact hle h'
    · apply hB
      have e1 : rep.take q.length = q := by
        rw [hrep, List.take_left]
      have e2 : pat.drop (pat.length - q.length) = q := by
        rw [hpat]
        have : (u ++ q).length - q.length = u.length := by
          rw [List.length_append]; omega
        rw [this, List.drop_left]
      rw [e1, e2]

theorem leadsWith_self_append [DecidableEq α] (p v : List α) :
    leadsWith p (p ++ v) = true :=
  (leadsWith_iff p (p ++ v)).mpr ⟨v, rfl⟩

/-- If a nonempty suffix `q` of `pat` is an initial segment of the
replaced string, it was already an initial segment of the input: under
`SafeRep` the rewriting cannot manufacture a fresh head matching part
of `pat`. -/
theorem pyReplaceAux_head_stable [DecidableEq α] {pat rep : List α}
    (hS : SafeRep pat rep) :
    ∀ n s q, s.length ≤ n → q ≠ [] → (∃ u, pat = u ++ q) →
      (∃ v, pyReplaceAux pat rep n s = q ++ v) → ∃ v, s = q ++ v := by
  obtain ⟨hP1, hP2, hP3, hP4⟩ := hS
  intro n
  induction n with
  | zero =>
    intro s q _ _ _ hpre
    simpa [pyReplaceAux] using hpre
  | succ m ih =>
    intro s q hlen hq hqsuf hpre
    cases s with
    | nil =>
      obtain ⟨v, hv⟩ := hpre
      simp only [pyReplaceAux] at hv
      cases q with
      | nil => exact absurd rfl hq
      | cons c cs => simp at hv
    | cons b bs =>
      by_cases hL : leadsWith pat (b :: bs) = true
      · rw [show pyReplaceAux pat rep (m + 1) (b :: bs)
            = rep ++ pyReplaceAux pat rep m (bs.drop (pat.length - 1)) from by
          simp [pyReplaceAux, hL]] at hpre
        obtain ⟨v, hv⟩ := hpre
        obtain ⟨w, hw⟩ | ⟨q2, hq2, w, hw⟩ := pref_append_split ⟨v, hv⟩
        · obtain ⟨u, hu⟩ := hqsuf
          by_cases hu0 : u = []
          · subst hu0
            simp only [List.nil_append] at hu
            subst hu
            exact absurd hw (by have := hP1 [] w; simpa using this)
          · exact (hP4 q u w hq hu0 hu hw).elim
        · obtain ⟨u, hu⟩ := hqsuf
          exact (hP2 u q2 (by rw [hu, hq2, List.append_assoc])).elim
      · rw [show pyReplaceAux pat rep (m + 1) (b :: bs)
            = b :: pyReplaceAux pat rep m bs from by simp [pyReplaceAux, hL]] at hpre
        obtain ⟨v, hv⟩ := hpre
        cases q with
        | nil => exact absurd rfl hq
        | cons c cs =>
          simp only [List.cons_append] at hv
          injection hv with h1 h2
          subst h1
          by_cases hcs : cs = []
          · subst hcs
            exact ⟨bs, rfl⟩
          · have hsuf : ∃ u, pat = u ++ cs := by
              obtain ⟨u, hu⟩ := hqsuf
              exact ⟨u ++ [b], by rw [hu]; simp⟩
            have hlen' : bs.length ≤ m := by
              simp only [List.length_cons] at hlen; omega
            obtain ⟨w, hw⟩ := ih bs cs hlen' hcs hsuf ⟨v, h2⟩
            exact ⟨w, by rw [hw]; simp⟩

/-- Main lemma for the amended C1: under `SafeRep`, the result of the
replacement scan contains no occurrence of `pat` at all. -/
theorem pyReplaceAux_no_occur [DecidableEq α] {pat rep : List α}
    (hS : SafeRep pat rep) (hpat : pat ≠ []) :
    ∀ n s, s.length ≤ n → hasOccur pat (pyReplaceAux pat rep n s) = false := by
  obtain ⟨hP1, hP2, hP3, hP4⟩ := hS
  intro n
  induction n with
  | zero =>
    intro s hlen
    have hs : s = [] := List.length_eq_zero.mp (Nat.le_zero.mp hlen)
    subst hs
    simpa [pyReplaceAux, hasOccur, List.isEmpty_iff] using hpat
  | succ m ih =>
    intro s hlen
    cases s with
    | nil => simpa [pyReplaceAux, hasOccur, List.isEmpty_iff] using hpat
    | cons b bs =>
      by_cases hL : leadsWith pat (b :: bs) = true
      · rw [show pyReplaceAux pat rep (m + 1) (b :: bs)
            = rep ++ pyReplaceAux pat rep m (bs.drop (pat.length - 1)) from by
          simp [pyReplaceAux, hL]]
        rw [Bool.eq_false_iff]
        intro hocc
        obtain h3 | h3 | ⟨p1, p2, hp, hp1, hp2, ⟨u2, hu2⟩, hv2⟩ :=
          occur_append_split ((hasOccur_iff pat _).mp hocc)
        · obtain ⟨u, v, huv⟩ := h3; exact hP1 u v huv
        · have hlen' : (bs.drop (pat.length - 1)).length ≤ m := by
            simp only [List.length_drop]
            simp only [List.length_cons] at hlen
            omega
          obtain ⟨u, v, huv⟩ := h3
          have htrue : hasOccur pat (pyReplaceAux pat rep m (bs.drop (pat.length - 1))) = true :=
            (hasOccur_iff _ _).mpr ⟨u, v, huv⟩
          rw [ih _ hlen'] at htrue
          exact Bool.false_ne_true htrue
        · exact hP3 p1 p2 u2 hp1 hp2 hp hu2
      · rw [show pyReplaceAux pat rep (m + 1) (b :: bs)
            = b :: pyReplaceAux pat rep m bs from by simp [pyReplaceAux, hL]]
        have hlen' : bs.length ≤ m := by
          simp only [List.length_cons] at hlen; omega
        have hbs := ih bs hlen'
        rw [show hasOccur pat (b :: pyReplaceAux pat rep m bs)
            = (leadsWith pat (b :: pyReplaceAux pat rep m bs)
                || hasOccur pat (pyReplaceAux pat rep m bs)) from rfl]
        rw [hbs, Bool.or_false, Bool.eq_false_iff]
        intro hLL
        obtain ⟨v, hv⟩ := (leadsWith_iff pat _).mp hLL
        cases pat with
        | nil => exact hpat rfl
        | cons p pt =>
          simp only [List.cons_append] at hv
          injection hv with h1 h2
          subst h1
          by_cases hpt : pt = []
          · subst hpt
            apply hL
            simp [leadsWith]
          · obtain ⟨w, hw⟩ := pyReplaceAux_head_stable ⟨hP1, hP2, hP3, hP4⟩
              m bs pt hlen' hpt ⟨[b], rfl⟩ ⟨v, h2⟩
            apply hL
            exact (leadsWith_iff _ _).mpr ⟨w, by rw [hw]; simp⟩

/-- `pyReplace` leaves no occurrence of the pattern when the
replacement is junction-safe. -/
theorem pyReplace_no_occur [DecidableEq α] {pat rep : List α}
    (hS : SafeRep pat rep) (hpat : pat ≠ []) (s : List α) :
    hasOccur pat (pyReplace pat rep s) = false :=
  pyReplaceAux_no_occur hS hpat s.length s le_rfl

/-- The replacement result contains the replacement string whenever the
input contained the pattern. -/
theorem pyReplaceAux_rep_occurs [DecidableEq α] {pat rep : List α} (hpat : pat ≠ []) :
    ∀ n s, s.length ≤ n → hasOccur pat s = true →
      hasOccur rep (pyReplaceAux pat rep n s) = true := by
  intro n
  induction n with
  | zero =>
    intro s hlen hocc
    have hs : s = [] := List.length_eq_zero.mp (Nat.le_zero.mp hlen)
    subst hs
    simp only [hasOccur, List.isEmpty_iff] at hocc
    exact absurd hocc hpat
  | succ m ih =>
    intro s hlen hocc
    cases s with
    | nil =>
      simp only [hasOccur, List.isEmpty_iff] at hocc
      exact absurd hocc hpat
    | cons b bs =>
      by_cases hL : leadsWith pat (b :: bs) = true
      · rw [show pyReplaceAux pat rep (m + 1) (b :: bs)
            = rep ++ pyReplaceAux pat rep m (bs.drop (pat.length - 1)) from by
          simp [pyReplaceAux, hL]]
        exact (hasOccur_iff _ _).mpr ⟨[], pyReplaceAux pat rep m (bs.drop (pat.length - 1)), by simp⟩
      · rw [show pyReplaceAux pat rep (m + 1) (b :: bs)
            = b :: pyReplaceAux pat rep m bs from by simp [pyReplaceAux, hL]]
        have hlen' : bs.length ≤ m := by
          simp only [List.length_cons] at hlen; omega
        have hocc' : hasOccur pat bs = true := by
          rw [show hasOccur pat (b :: bs)
              = (leadsWith pat (b :: bs) || hasOccur pat bs) from rfl] at hocc
          rw [Bool.eq_false_iff.mpr hL, Bool.false_or] at hocc
          exact hocc
        rw [show hasOccur rep (b :: pyReplaceAux pat rep m bs)
            = (leadsWith rep (b :: pyReplaceAux pat rep m bs)
                || hasOccur rep (pyReplaceAux pat rep m bs)) from rfl]
        rw [ih bs hlen' hocc']
        simp

theorem leadsWith_tail_drop [DecidableEq α] {pat : List α} (hpat : pat ≠ [])
    {b : α} {bs : List α} (h : leadsWith pat (b :: bs) = true) :
    b :: bs = pat ++ bs.drop (pat.length - 1) := by
  obtain ⟨v, hv⟩ := (leadsWith_iff pat (b :: bs)).mp h
  cases pat with
  | nil => exact absurd rfl hpat
  | cons p ps =>
    simp only [List.cons_append] at hv
    injection hv with h1 h2
    subst h1
    subst h2
    rw [List.length_cons, Nat.add_sub_cancel, List.drop_left]
    simp

theorem splitTok_ne_nil [DecidableEq α] (pat : List α) (n : Nat) (s : List α) :
    splitTok pat n s ≠ [] := by
  cases n with
  | zero => simp [splitTok]
  | succ m =>
    cases s with
    | nil => simp [splitTok]
    | cons b bs =>
      by_cases hL : leadsWith pat (b :: bs) = true
      · simp [splitTok, hL]
      · simp only [splitTok, if_neg hL]
        cases splitTok pat m bs <;> simp

theorem splitTok_head_initial [DecidableEq α] (pat : List α) :
    ∀ n s seg rest, splitTok pat n s = seg :: rest → ∃ v, s = seg ++ v := by
  intro n
  induction n with
  | zero =>
    intro s seg rest h
    simp only [splitTok] at h
    injection h with h1 _
    exact ⟨[], by simp [h1]⟩
  | succ m ih =>
    intro s seg rest h
    cases s with
    | nil =>
      simp only [splitTok] at h
      injection h with h1 _
      exact ⟨[], by simp [← h1]⟩
    | cons b bs =>
      by_cases hL : leadsWith pat (b :: bs) = true
      · simp only [splitTok, if_pos hL] at h
        injection h with h1 _
        exact ⟨b :: bs, by simp [← h1]⟩
      · simp only [splitTok, if_neg hL] at h
        rcases hsp : splitTok pat m bs with _ | ⟨seg', rest'⟩
        · exact absurd hsp (splitTok_ne_nil pat m bs)
        · rw [hsp] at h
          injection h with h1 _
          obtain ⟨v, hv⟩ := ih bs seg' rest' hsp
          exact ⟨v, by rw [← h1, hv]; simp⟩

theorem joinBy_splitTok_orig [DecidableEq α] {pat : List α} (hpat : pat ≠ []) :
    ∀ n s, joinBy pat (splitTok pat n s) = s := by
  intro n
  induction n with
  | zero => intro s; simp [splitTok, joinBy]
  | succ m ih =>
    intro s
    cases s with
    | nil => simp [splitTok, joinBy]
    | cons b bs =>
      by_cases hL : leadsWith pat (b :: bs) = true
      · simp only [splitTok, if_pos hL]
        rcases hsp : splitTok pat m (bs.drop (pat.length - 1)) with _ | ⟨seg, rest⟩
        · exact absurd hsp (splitTok_ne_nil pat m _)
        · have hjoin : joinBy pat ([] :: seg :: rest) = pat ++ joinBy pat (seg :: rest) := by
            simp [joinBy]
          rw [hjoin, ← hsp, ih]
          exact (leadsWith_tail_drop hpat hL).symm
      · simp only [splitTok, if_neg hL]
        rcases hsp : splitTok pat m bs with _ | ⟨seg, rest⟩
        · exact absurd hsp (splitTok_ne_nil pat m bs)
        · have hIH := ih bs
          rw [hsp] at hIH
          cases rest with
          | nil =>
            simp only [joinBy] at hIH ⊢
            rw [hIH]
          | cons r rs =>
            simp only [joinBy] at hIH ⊢
            rw [← hIH]
            simp

theorem joinBy_splitTok_replaced [DecidableEq α] {pat : List α} (rep : List α) :
    ∀ n s, joinBy rep (splitTok pat n s) = pyReplaceAux pat rep n s := by
  intro n
  induction n with
  | zero => intro s; simp [splitTok, joinBy, pyReplaceAux]
  | succ m ih =>
    intro s
    cases s with
    | nil => simp [splitTok, joinBy, pyReplaceAux]
    | cons b bs =>
      by_cases hL : leadsWith pat (b :: bs) = true
      · simp only [splitTok, if_pos hL, pyReplaceAux]
        rcases hsp : splitTok pat m (bs.drop (pat.length - 1)) with _ | ⟨seg, rest⟩
        · exact absurd hsp (splitTok_ne_nil pat m _)
        · have hjoin : joinBy rep ([] :: seg :: rest) = rep ++ joinBy rep (seg :: rest) := by
            simp [joinBy]
          rw [hjoin, ← hsp, ih]
      · simp only [splitTok, if_neg hL, pyReplaceAux]
        rcases hsp : splitTok pat m bs with _ | ⟨seg, rest⟩
        · exact absurd hsp (splitTok_ne_nil pat m bs)
        · have hIH := ih bs
          rw [hsp] at hIH
          cases rest with
          | nil =>
            simp only [joinBy] at hIH ⊢
            rw [hIH]
          | cons r rs =>
            simp only [joinBy] at hIH ⊢
            rw [← hIH]
            simp

theorem splitTok_segments_free [DecidableEq α] {pat : List α} (hpat : pat ≠ []) :
    ∀ n s, s.length ≤ n → ∀ g ∈ splitTok pat n s, hasOccur pat g = false := by
  intro n
  induction n with
  | zero =>
    intro s hlen g hg
    have hs : s = [] := List.length_eq_zero.mp (Nat.le_zero.mp hlen)
    subst hs
    simp only [splitTok, List.mem_singleton] at hg
    subst hg
    simpa [hasOccur, List.isEmpty_iff] using hpat
  | succ m ih =>
    intro s hlen g hg
    cases s with
    | nil =>
      simp only [splitTok, List.mem_singleton] at hg
      subst hg
      simpa [hasOccur, List.isEmpty_iff] using hpat
    | cons b bs =>
      by_cases hL : leadsWith pat (b :: bs) = true
      · simp only [splitTok, if_pos hL, List.mem_cons] at hg
        rcases hg with rfl | hg
        · simpa [hasOccur, List.isEmpty_iff] using hpat
        · have hlen' : (bs.drop (pat.length - 1)).length ≤ m := by
            simp only [List.length_drop]
            simp only [List.length_cons] at hlen
            omega
          exact ih _ hlen' g hg
      · simp only [splitTok, if_neg hL] at hg
        rcases hsp : splitTok pat m bs with _ | ⟨seg, rest⟩
        · exact absurd hsp (splitTok_ne_nil pat m bs)
        · rw [hsp] at hg
          have hlen' : bs.length ≤ m := by
            simp only [List.length_cons] at hlen; omega
          simp only [List.mem_cons] at hg
          rcases hg with rfl | hg
          · rw [show hasOccur pat (b :: seg)
                = (leadsWith pat (b :: seg) || hasOccur pat seg) from rfl]
            have hseg : hasOccur pat seg = false :=
              ih bs hlen' seg (by rw [hsp]; exact List.mem_cons_self seg rest)
            rw [hseg, Bool.or_false, Bool.eq_false_iff]
            intro hLL
            obtain ⟨v, hv⟩ := (leadsWith_iff pat _).mp hLL
            obtain ⟨w, hw⟩ := splitTok_head_initial pat m bs seg rest hsp
            apply hL
            refine (leadsWith_iff pat _).mpr ⟨v ++ w, ?_⟩
            rw [hw, show b :: (seg ++ w) = (b :: seg) ++ w from rfl, hv, List.append_assoc]
          · exact ih bs hlen' g (by rw [hsp]; exact List.mem_cons_of_mem seg hg)

/-! ### The world state of the script

The filesystem is a record of existing directories, file contents, and
the process-wide current working directory.  The commands the script
hands to `subprocess.check_output` are recorded in an event list, in
invocation order; an oracle decides whether each command exits
successfully. -/

/-- The three external commands the script runs, in source order:
`python scripts/build.py`, `python core/tests/gae_suite.py`, and
`appcfg.py update . --oauth2`. -/
inductive Cmd where
  | build
  | tests
  | publish
deriving DecidableEq

/-- The exceptions the script can raise, each carrying the data its
message names. -/
inductive Err where
  | noAppName
  | wrongStartDir (cwd : FsPath)
  | destExists (p : FsPath)
  | invalidDeployDir (cwd : FsPath)
  | missingFile (p : FsPath)
  | missingDeployData (p : FsPath)
  | missingSrc (p : FsPath)
  | missingDst (p : FsPath)
  | cmdFailed (c : Cmd)
deriving DecidableEq

/-- The mutable state the script acts on. -/
structure World where
  cwd : FsPath
  dirs : List FsPath
  files : List (FsPath × Str)
  events : List Cmd
deriving DecidableEq

/-- Contents of the file at `p`, when a file exists there. -/
def getFile (w : World) (p : FsPath) : Option Str :=
  (w.files.find? fun e => decide (e.1 = p)).map (·.2)

/-- `os.path.exists`: true when `p` is a known directory or file. -/
def pathExists (p : FsPath) (w : World) : Bool :=
  (w.dirs.any fun d => decide (d = p)) || (w.files.any fun e => decide (e.1 = p))

/-- Create or overwrite the file at `p` with contents `c`
(Python `open(p, 'w+')` followed by `write`). -/
def writeFile (p : FsPath) (c : Str) (w : World) : World :=
  { w with files := (w.files.filter fun e => !decide (e.1 = p)) ++ [(p, c)] }

/-- `os.remove`. -/
def removeFile (p : FsPath) (w : World) : World :=
  { w with files := w.files.filter fun e => !decide (e.1 = p) }

/-- Append `s` to the file at `p`, creating it when absent
(Python `open(p, 'a')` followed by `write`). -/
def appendFile (p : FsPath) (s : Str) (w : World) : World :=
  match getFile w p with
  | some c => writeFile p (c ++ s) w
  | none => writeFile p s w

/-- `shutil.copyfile src dst`. -/
def copyfile (src dst : FsPath) (w : World) : World :=
  match getFile w src with
  | some c => writeFile dst c w
  | none => w

/-- The `'..'` path segment. -/
def dotdot : Str := "..".toList

/-- Resolve an `os.path.join`-style relative suffix against an absolute
working directory, normalising `'..'` segments as the OS does. -/
def resolvePath (cwd : FsPath) : List Str → FsPath
  | [] => cwd
  | seg :: rest =>
    if seg = dotdot then resolvePath cwd.dropLast rest
    else resolvePath (cwd ++ [seg]) rest

/-- All the nonempty initial chains of a directory path: the
directories `os.makedirs` brings into existence. -/
def ancestorsOf (d : FsPath) : List FsPath :=
  (List.range d.length).map fun k => d.take (k + 1)

/-- `os.makedirs d`: create `d` and any missing ancestor. -/
def makedirs (d : FsPath) (w : World) : World :=
  { w with dirs := w.dirs ++ (ancestorsOf d).filter fun a => !pathExists a w }

/-- `ensure_directory_exists(f)` from the script: create the dirname of
`f` when it does not yet exist.  Note that it never creates `f`
itself. -/
def ensure_directory_exists (f : FsPath) (w : World) : World :=
  if pathExists f.dropLast w then w else makedirs f.dropLast w

/-- `'.git'`. -/
def gitName : Str := ".git".toList

/-- `shutil.copytree src dst` with `ignore_patterns('.git')`: fails when
`dst` already exists (its internal `os.makedirs(dst)` raises), else
mirrors every directory and file under `src` — except entries named
`.git` — below `dst`. -/
def copytree (src dst : FsPath) (w : World) : World × Option Err :=
  if pathExists dst w then (w, some (Err.destExists dst))
  else
    ({ w with
        dirs := w.dirs ++ [dst] ++ w.dirs.filterMap fun d =>
          if leadsWith src d && decide (src.length < d.length)
              && !(d.drop src.length).any (fun seg => decide (seg = gitName)) then
            some (dst ++ d.drop src.length)
          else none,
        files := w.files ++ w.files.filterMap fun e =>
          if leadsWith src e.1 && decide (src.length < e.1.length)
              && !(e.1.drop src.length).any (fun seg => decide (seg = gitName)) then
            some (dst ++ e.1.drop src.length, e.2)
          else none },
      none)

/-- `subprocess.check_output`: record the invocation; raise
`CalledProcessError` when the oracle reports a non-zero exit. -/
def subprocess_check_output (c : Cmd) (oracle : Cmd → Bool) (w : World) :
    World × Option Err :=
  let w1 := { w with events := w.events ++ [c] }
  if oracle c then (w1, none) else (w1, some (Err.cmdFailed c))

/-! ### The `CD` context manager and the `with` statement -/

/-- The state a `CD` instance holds between `__enter__` and
`__exit__`. -/
structure CDSt where
  saved_path : FsPath
deriving DecidableEq

/-- `CD.__enter__`: remember the current directory, then `os.chdir` to
the new path. -/
def cdEnter (new_path : FsPath) (w : World) : CDSt × World :=
  (⟨w.cwd⟩, { w with cwd := new_path })

/-- `CD.__exit__`: `os.chdir` back to the remembered directory.  It
returns `None`, a falsy value, so it never suppresses an exception. -/
def cdExit (st : CDSt) (_e : Option Err) (w : World) : Bool × World :=
  (false, { w with cwd := st.saved_path })

/-- Python `with` semantics over this error model: run `__enter__`, the
body, then `__exit__` (also on error); the exception is swallowed
exactly when `__exit__` returns a truthy value. -/
def withStmt (enter : World → CDSt × World)
    (exitF : CDSt → Option Err → World → Bool × World)
    (body : World → World × Option Err) (w : World) : World × Option Err :=
  let p := enter w
  let r := body p.2
  let q := exitF p.1 r.2 r.1
  (q.2, if q.1 then none else r.2)

/-- Error-propagating sequencing of script statements. -/
def seqE (r : World × Option Err) (k : World → World × Option Err) :
    World × Option Err :=
  match r with
  | (w, some e) => (w, some e)
  | (w, none) => k w

/-! ### Timestamps (`datetime.datetime.utcnow()` and `strftime`) -/

/-- The UTC timestamp captured once at process start
(`CURRENT_DATETIME`), at second resolution. -/
structure DT where
  year : Nat
  month : Nat
  day : Nat
  hour : Nat
  minute : Nat
  second : Nat
deriving DecidableEq

/-- Field ranges of a real calendar timestamp. -/
def validDT (t : DT) : Prop :=
  1000 ≤ t.year ∧ t.year ≤ 9999 ∧ 1 ≤ t.month ∧ t.month ≤ 12 ∧
  1 ≤ t.day ∧ t.day ≤ 31 ∧ t.hour ≤ 23 ∧ t.minute ≤ 59 ∧ t.second ≤ 59

instance (t : DT) : Decidable (validDT t) := by
  unfold validDT; infer_instance

/-- Two-digit zero-padded decimal rendering (`%m`, `%d`, `%H`, `%M`,
`%S` for in-range values). -/
def pad2 (n : Nat) : Str :=
  [Nat.digitChar (n / 10), Nat.digitChar (n % 10)]

/-- Four-digit zero-padded decimal rendering (`%Y` for calendar
years). -/
def pad4 (n : Nat) : Str :=
  [Nat.digitChar (n / 1000), Nat.digitChar (n / 100 % 10),
   Nat.digitChar (n / 10 % 10), Nat.digitChar (n % 10)]

/-- `strftime('%Y%m%d-%H%M%S')`. -/
def fmtCompact (t : DT) : Str :=
  pad4 t.year ++ pad2 t.month ++ pad2 t.day ++ "-".toList ++
  pad2 t.hour ++ pad2 t.minute ++ pad2 t.second

/-- `strftime('%Y-%m-%d %H:%M:%S')`. -/
def fmtHuman (t : DT) : Str :=
  pad4 t.year ++ "-".toList ++ pad2 t.month ++ "-".toList ++ pad2 t.day ++
  " ".toList ++ pad2 t.hour ++ ":".toList ++ pad2 t.minute ++ ":".toList ++
  pad2 t.second

/-! ### Script constants -/

/-- The placeholder application identifier in `app.yaml`. -/
def oppiaserverTok : Str := "oppiaserver".toList

/-- The required name suffix of the project root. -/
def oppiaTok : Str := "oppia".toList

def appYamlName : Str := "app.yaml".toList

def deployDataName : Str := "deploy_data".toList

def imagesName : Str := "images".toList

def staticName : Str := "static".toList

def deployLogName : Str := "deploy.log".toList

/-- `SPLASH_PAGE_FILES`. -/
def bannerName : Str := "banner.png".toList

def faviconName : Str := "favicon.ico".toList

def logoName : Str := "logo.png".toList

def splashPageFiles : List Str := [bannerName, faviconName, logoName]

/-- `RELEASE_DIR_NAME = '%s-deploy-%s' % (APP_NAME, strftime(...))`. -/
def releaseDirName (app : Str) (t : DT) : Str :=
  app ++ "-deploy-".toList ++ fmtCompact t

/-- `os.getcwd().endswith(tok)` for a separator-free `tok`: the string
suffix test on the path rendered with `/` separators, which for a
token without separators is a suffix test on the final segment. -/
def cwdEndsWith (tok : Str) (p : FsPath) : Bool :=
  match p.getLast? with
  | some seg => decide (tok.length ≤ seg.length) && decide (seg.drop (seg.length - tok.length) = tok)
  | none => decide (tok = [])

/-- `DEPLOY_DATA_PATH = os.path.join(os.getcwd(), '..', 'deploy_data', APP_NAME)`. -/
def deployDataPath (cwd : FsPath) (app : Str) : FsPath :=
  resolvePath cwd [dotdot, deployDataName, app]

/-- Source path of one splash override asset. -/
def srcAssetPath (cwd : FsPath) (app f : Str) : FsPath :=
  deployDataPath cwd app ++ [imagesName, f]

/-- Destination path of one splash override asset inside the release
copy. -/
def dstAssetPath (cwd : FsPath) (f : Str) : FsPath :=
  cwd ++ [staticName, imagesName, f]

/-- Path of `app.yaml` relative to the current directory. -/
def yamlPath (cwd : FsPath) : FsPath := cwd ++ [appYamlName]

/-- `LOG_FILE_PATH = os.path.join('..', 'deploy.log')`, resolved against
the current directory at use time. -/
def logFilePath (cwd : FsPath) : FsPath :=
  resolvePath cwd [dotdot, deployLogName]

/-- The line appended to the deployment log on success (including its
trailing newline). -/
def logLine (app : Str) (t : DT) : Str :=
  "Successfully deployed to ".toList ++ app ++ " at ".toList ++
  fmtHuman t ++ "\n".toList

/-! ### The script body -/

/-- The per-asset loop of `preprocess_release`: check source and
destination existence for each splash file in order, then copy. -/
def copyAssetsLoop (dd : FsPath) : List Str → World → World × Option Err
  | [], w => (w, none)
  | f :: rest, w =>
    let src := dd ++ [imagesName, f]
    let dst := dstAssetPath w.cwd f
    if !pathExists src w then (w, some (Err.missingSrc src))
    else if !pathExists dst w then (w, some (Err.missingDst dst))
    else copyAssetsLoop dd rest (copyfile src dst w)

/-- `preprocess_release()`: rewrite `app.yaml` replacing the
placeholder by `APP_NAME` (read, remove, re-create), then substitute
the three splash image files. -/
def preprocess_release (app : Str) (w : World) : World × Option Err :=
  match getFile w (yamlPath w.cwd) with
  | none => (w, some (Err.missingFile (yamlPath w.cwd)))
  | some content =>
    let w1 := removeFile (yamlPath w.cwd) w
    let w2 := writeFile (yamlPath w.cwd) (pyReplace oppiaserverTok app content) w1
    let dd := deployDataPath w2.cwd app
    if !pathExists dd w2 then (w2, some (Err.missingDeployData dd))
    else copyAssetsLoop dd splashPageFiles w2

/-- The body of the `with CD(RELEASE_DIR_PATH)` block: directory-name
re-check, preprocessing, build, tests, publish, then the audit-log
append. -/
def insideRelease (app relName : Str) (t : DT) (oracle : Cmd → Bool)
    (w : World) : World × Option Err :=
  if !cwdEndsWith relName w.cwd then (w, some (Err.invalidDeployDir w.cwd))
  else
    seqE (preprocess_release app w) fun w1 =>
    seqE (subprocess_check_output Cmd.build oracle w1) fun w2 =>
    seqE (subprocess_check_output Cmd.tests oracle w2) fun w3 =>
    seqE (subprocess_check_output Cmd.publish oracle w3) fun w4 =>
      let w5 := ensure_directory_exists (logFilePath w4.cwd) w4
      (appendFile (logFilePath w5.cwd) (logLine app t) w5, none)

/-- The module-level statements that run once `APP_NAME` is known:
working-directory check, release-directory creation, tree copy, and the
scoped-directory block. -/
def deployWithApp (app : Str) (t : DT) (oracle : Cmd → Bool) (w : World) :
    World × Option Err :=
  let relName := releaseDirName app t
  let relPath := resolvePath w.cwd [dotdot, relName]
  if !cwdEndsWith oppiaTok w.cwd then (w, some (Err.wrongStartDir w.cwd))
  else
    let w1 := ensure_directory_exists relPath w
    seqE (copytree w1.cwd relPath w1) fun w2 =>
      withStmt (cdEnter relPath) cdExit (insideRelease app relName t oracle) w2

/-- The whole script run: argument resolution first.  Python's
`if parsed_args.app_name:` treats both a missing argument and an empty
string as falsy and raises before anything else happens. -/
def deployRun (appArg : Option Str) (t : DT) (oracle : Cmd → Bool) (w : World) :
    World × Option Err :=
  match appArg with
  | none => (w, some Err.noAppName)
  | some app =>
    if app = [] then (w, some Err.noAppName) else deployWithApp app t oracle w

/-! ### Small facts about the filesystem primitives -/

theorem snoc_inj {a b : List α} {x y : α} (h : a ++ [x] = b ++ [y]) :
    a = b ∧ x = y := by
  have h' := congrArg List.reverse h
  simp only [List.reverse_append, List.reverse_cons, List.reverse_nil,
    List.nil_append, List.singleton_append] at h'
  injection h' with h1 h2
  exact ⟨by simpa using congrArg List.reverse h2, h1⟩

theorem find?_filter_ne_key (files : List (FsPath × Str)) (p q : FsPath) (h : q ≠ p) :
    ((files.filter fun e => !decide (e.1 = p)).find? fun e => decide (e.1 = q))
      = files.find? fun e => decide (e.1 = q) := by
  induction files with
  | nil => rfl
  | cons e rest ih =>
    by_cases hep : e.1 = p
    · rw [List.filter_cons_of_neg (by simp [hep]),
          List.find?_cons_of_neg _ (by simp [hep]; exact fun hc => h hc.symm)]
      exact ih
    · rw [List.filter_cons_of_pos (by simp [hep])]
      by_cases heq : e.1 = q
      · rw [List.find?_cons_of_pos _ (by simp [heq]),
            List.find?_cons_of_pos _ (by simp [heq])]
      · rw [List.find?_cons_of_neg _ (by simp [heq]),
            List.find?_cons_of_neg _ (by simp [heq])]
        exact ih

theorem getFile_writeFile_self (p : FsPath) (c : Str) (w : World) :
    getFile (writeFile p c w) p = some c := by
  unfold getFile writeFile
  rw [List.find?_append]
  have hnone : ((w.files.filter fun e => !decide (e.1 = p)).find?
      fun e => decide (e.1 = p)) = none := by
    apply List.find?_eq_none.mpr
    intro x hx
    have hx' := (List.mem_filter.mp hx).2
    simpa using hx'
  rw [hnone]
  simp [List.find?]

theorem getFile_writeFile_ne {q p : FsPath} (c : Str) (w : World) (h : q ≠ p) :
    getFile (writeFile p c w) q = getFile w q := by
  unfold getFile writeFile
  rw [List.find?_append, find?_filter_ne_key _ _ _ h]
  have hpc : (List.find? (fun e => decide (e.1 = q)) [(p, c)]) = none := by
    rw [List.find?_cons_of_neg _ (by simp; exact fun hc => h hc.symm)]
    rfl
  rw [hpc]
  cases w.files.find? fun e => decide (e.1 = q) <;> rfl

theorem getFile_removeFile_ne {q p : FsPath} (w : World) (h : q ≠ p) :
    getFile (removeFile p w) q = getFile w q := by
  unfold getFile removeFile
  rw [find?_filter_ne_key _ _ _ h]

theorem getFile_copyfile_ne {q : FsPath} (src dst : FsPath) (w : World) (h : q ≠ dst) :
    getFile (copyfile src dst w) q = getFile w q := by
  unfold copyfile
  cases getFile w src with
  | none => rfl
  | some c => exact getFile_writeFile_ne c w h

theorem any_filter_ne_key (files : List (FsPath × Str)) (p q : FsPath) (h : q ≠ p) :
    ((files.filter fun e => !decide (e.1 = p)).any fun e => decide (e.1 = q))
      = files.any fun e => decide (e.1 = q) := by
  induction files with
  | nil => rfl
  | cons e rest ih =>
    by_cases hep : e.1 = p
    · rw [List.filter_cons_of_neg (by simp [hep]), List.any_cons]
      have hq : decide (e.1 = q) = false := by
        simp [hep]; exact fun hc => h hc.symm
      rw [hq, Bool.false_or]
      exact ih
    · rw [List.filter_cons_of_pos (by simp [hep]), List.any_cons, List.any_cons, ih]

theorem pathExists_writeFile_ne {q p : FsPath} (c : Str) (w : World) (h : q ≠ p) :
    pathExists q (writeFile p c w) = pathExists q w := by
  unfold pathExists writeFile
  simp only [List.any_append]
  rw [any_filter_ne_key _ _ _ h]
  have : (([(p, c)]).any fun e => decide (e.1 = q)) = false := by
    simp
    exact fun hc => h hc.symm
  rw [this]
  simp

theorem pathExists_copyfile_ne {q : FsPath} (src dst : FsPath) (w : World) (h : q ≠ dst) :
    pathExists q (copyfile src dst w) = pathExists q w := by
  unfold copyfile
  cases getFile w src with
  | none => rfl
  | some c => exact pathExists_writeFile_ne c w h

theorem copyfile_cwd (src dst : FsPath) (w : World) : (copyfile src dst w).cwd = w.cwd := by
  unfold copyfile; cases getFile w src <;> rfl

theorem copyfile_dirs (src dst : FsPath) (w : World) : (copyfile src dst w).dirs = w.dirs := by
  unfold copyfile; cases getFile w src <;> rfl

theorem copyfile_events (src dst : FsPath) (w : World) :
    (copyfile src dst w).events = w.events := by
  unfold copyfile; cases getFile w src <;> rfl

theorem pathExists_of_mem_dirs {p : FsPath} {w : World} (h : p ∈ w.dirs) :
    pathExists p w = true := by
  unfold pathExists
  have : (w.dirs.any fun d => decide (d = p)) = true :=
    List.any_eq_true.mpr ⟨p, h, by simp⟩
  rw [this]; simp

theorem ensure_directory_exists_files (f : FsPath) (w : World) :
    (ensure_directory_exists f w).files = w.files := by
  unfold ensure_directory_exists makedirs; split <;> rfl

theorem ensure_directory_exists_cwd (f : FsPath) (w : World) :
    (ensure_directory_exists f w).cwd = w.cwd := by
  unfold ensure_directory_exists makedirs; split <;> rfl

theorem ensure_directory_exists_events (f : FsPath) (w : World) :
    (ensure_directory_exists f w).events = w.events := by
  unfold ensure_directory_exists makedirs; split <;> rfl

theorem getFile_ensure_directory_exists (f q : FsPath) (w : World) :
    getFile (ensure_directory_exists f w) q = getFile w q := by
  unfold getFile
  rw [ensure_directory_exists_files]

theorem mem_dirs_ensure_directory_exists {d : FsPath} (f : FsPath) {w : World}
    (h : d ∈ w.dirs) : d ∈ (ensure_directory_exists f w).dirs := by
  unfold ensure_directory_exists makedirs
  split
  · exact h
  · simp only [List.mem_append]; exact Or.inl h

/-! ### Path computations and disequalities -/

theorem snoc_ne_of_last_ne {a b : List α} {x y : α} (h : x ≠ y) :
    a ++ [x] ≠ b ++ [y] :=
  fun hc => h (snoc_inj hc).2

theorem resolvePath_dotdot_single (c : FsPath) (x : Str) (h : x ≠ dotdot) :
    resolvePath c [dotdot, x] = c.dropLast ++ [x] := by
  simp [resolvePath, h]

theorem logFilePath_eq (c : FsPath) : logFilePath c = c.dropLast ++ [deployLogName] := by
  apply resolvePath_dotdot_single
  decide

theorem fmtCompact_length (t : DT) : (fmtCompact t).length = 15 := by
  simp [fmtCompact, pad4, pad2, show ("-".toList : Str) = [Char.ofNat 45] from rfl]

theorem releaseDirName_ne_dotdot (app : Str) (t : DT) :
    releaseDirName app t ≠ dotdot := by
  intro hc
  have hlen := congrArg List.length hc
  simp only [releaseDirName, List.length_append, fmtCompact_length,
    show (("-deploy-".toList : Str)).length = 8 from rfl,
    show (dotdot : Str).length = 2 from rfl] at hlen
  omega

theorem releaseDirPath_eq (c : FsPath) (app : Str) (t : DT) :
    resolvePath c [dotdot, releaseDirName app t]
      = c.dropLast ++ [releaseDirName app t] :=
  resolvePath_dotdot_single c _ (releaseDirName_ne_dotdot app t)

theorem dstAssetPath_snoc (c : FsPath) (f : Str) :
    dstAssetPath c f = (c ++ [staticName, imagesName]) ++ [f] := by
  simp [dstAssetPath]

theorem srcAssetPath_snoc (c : FsPath) (app f : Str) :
    srcAssetPath c app f = (deployDataPath c app ++ [imagesName]) ++ [f] := by
  simp [srcAssetPath]

theorem cwdEndsWith_snoc_self (x : Str) (a : FsPath) :
    cwdEndsWith x (a ++ [x]) = true := by
  unfold cwdEndsWith
  rw [List.getLast?_concat]
  simp

/-! ### Behaviour of the script components -/

theorem subprocess_check_output_fst (c : Cmd) (oracle : Cmd → Bool) (w : World) :
    (subprocess_check_output c oracle w).1 = { w with events := w.events ++ [c] } := by
  unfold subprocess_check_output
  split <;> rfl

theorem subprocess_check_output_snd (c : Cmd) (oracle : Cmd → Bool) (w : World) :
    (subprocess_check_output c oracle w).2
      = if oracle c then none else some (Err.cmdFailed c) := by
  unfold subprocess_check_output
  split <;> simp [*]

theorem withStmt_cd_eq (p : FsPath) (body : World → World × Option Err) (w : World) :
    withStmt (cdEnter p) cdExit body w
      = ({ (body { w with cwd := p }).1 with cwd := w.cwd },
         (body { w with cwd := p }).2) := by
  simp [withStmt, cdEnter, cdExit]

theorem copytree_fail {src dst : FsPath} {w : World} (h : pathExists dst w = true) :
    copytree src dst w = (w, some (Err.destExists dst)) := by
  unfold copytree
  rw [if_pos h]

theorem copytree_ok_snd {src dst : FsPath} {w : World} (h : pathExists dst w = false) :
    (copytree src dst w).2 = none := by
  unfold copytree
  rw [if_neg (by simp [h])]

theorem copytree_ok_cwd {src dst : FsPath} {w : World} (h : pathExists dst w = false) :
    (copytree src dst w).1.cwd = w.cwd := by
  unfold copytree
  rw [if_neg (by simp [h])]

theorem copytree_ok_events {src dst : FsPath} {w : World} (h : pathExists dst w = false) :
    (copytree src dst w).1.events = w.events := by
  unfold copytree
  rw [if_neg (by simp [h])]

theorem copytree_ok_mem_dirs {src dst : FsPath} {w : World} (h : pathExists dst w = false) :
    dst ∈ (copytree src dst w).1.dirs := by
  unfold copytree
  rw [if_neg (by simp [h])]
  simp

theorem copytree_ok_getFile_stable {src dst : FsPath} {w : World} {q : FsPath}
    (h : pathExists dst w = false) (hq : ∀ rel, rel ≠ [] → q ≠ dst ++ rel) :
    getFile (copytree src dst w).1 q = getFile w q := by
  unfold copytree
  rw [if_neg (by simp [h])]
  show getFile { w with files := w.files ++ _ } q = getFile w q
  unfold getFile
  simp only [List.find?_append]
  have hnone : (List.find? (fun e => decide (e.1 = q))
      (w.files.filterMap fun e =>
        if leadsWith src e.1 && decide (src.length < e.1.length)
            && !(e.1.drop src.length).any (fun seg => decide (seg = gitName)) then
          some (dst ++ e.1.drop src.length, e.2)
        else none)) = none := by
    apply List.find?_eq_none.mpr
    intro x hx
    obtain ⟨a, _, ha⟩ := List.mem_filterMap.mp hx
    by_cases hcond : (leadsWith src a.1 && decide (src.length < a.1.length)
        && !(a.1.drop src.length).any (fun seg => decide (seg = gitName))) = true
    · rw [if_pos hcond] at ha
      injection ha with ha'
      subst ha'
      simp only [Bool.and_eq_true, decide_eq_true_eq] at hcond
      have hrel : a.1.drop src.length ≠ [] := by
        intro hc
        have := congrArg List.length hc
        simp only [List.length_drop, List.length_nil] at this
        omega
      simp only [decide_eq_true_eq]
      exact fun hc => hq _ hrel hc.symm
    · rw [if_neg hcond] at ha
      exact absurd ha (by simp)
  rw [hnone]
  cases List.find? (fun e => decide (e.1 = q)) w.files <;> rfl

theorem copyAssetsLoop_cwd (dd : FsPath) (fs : List Str) (w : World) :
    (copyAssetsLoop dd fs w).1.cwd = w.cwd := by
  induction fs generalizing w with
  | nil => rfl
  | cons f rest ih =>
    unfold copyAssetsLoop
    dsimp only
    split
    · rfl
    · split
      · rfl
      · rw [ih, copyfile_cwd]

theorem copyAssetsLoop_dirs (dd : FsPath) (fs : List Str) (w : World) :
    (copyAssetsLoop dd fs w).1.dirs = w.dirs := by
  induction fs generalizing w with
  | nil => rfl
  | cons f rest ih =>
    unfold copyAssetsLoop
    dsimp only
    split
    · rfl
    · split
      · rfl
      · rw [ih, copyfile_dirs]

theorem copyAssetsLoop_events (dd : FsPath) (fs : List Str) (w : World) :
    (copyAssetsLoop dd fs w).1.events = w.events := by
  induction fs generalizing w with
  | nil => rfl
  | cons f rest ih =>
    unfold copyAssetsLoop
    dsimp only
    split
    · rfl
    · split
      · rfl
      · rw [ih, copyfile_events]

theorem copyAssetsLoop_getFile_stable (dd : FsPath) (fs : List Str) (w : World)
    (q : FsPath) (hq : ∀ f ∈ fs, q ≠ dstAssetPath w.cwd f) :
    getFile (copyAssetsLoop dd fs w).1 q = getFile w q := by
  induction fs generalizing w with
  | nil => rfl
  | cons f rest ih =>
    unfold copyAssetsLoop
    dsimp only
    split
    · rfl
    · split
      · rfl
      · rw [ih _ ?_, getFile_copyfile_ne _ _ _ (hq f (List.mem_cons_self f rest))]
        intro g hg
        rw [copyfile_cwd]
        exact hq g (List.mem_cons_of_mem f hg)

theorem preprocess_release_cwd (app : Str) (w : World) :
    (preprocess_release app w).1.cwd = w.cwd := by
  unfold preprocess_release
  cases getFile w (yamlPath w.cwd) with
  | none => rfl
  | some content =>
    simp only
    split
    · rfl
    · rw [copyAssetsLoop_cwd]
      rfl

theorem preprocess_release_dirs (app : Str) (w : World) :
    (preprocess_release app w).1.dirs = w.dirs := by
  unfold preprocess_release
  cases getFile w (yamlPath w.cwd) with
  | none => rfl
  | some content =>
    simp only
    split
    · rfl
    · rw [copyAssetsLoop_dirs]
      rfl

theorem preprocess_release_events (app : Str) (w : World) :
    (preprocess_release app w).1.events = w.events := by
  unfold preprocess_release
  cases getFile w (yamlPath w.cwd) with
  | none => rfl
  | some content =>
    simp only
    split
    · rfl
    · rw [copyAssetsLoop_events]
      rfl

theorem preprocess_release_getFile_stable (app : Str) (w : World) (q : FsPath)
    (hq1 : q ≠ yamlPath w.cwd)
    (hq2 : ∀ f ∈ splashPageFiles, q ≠ dstAssetPath w.cwd f) :
    getFile (preprocess_release app w).1 q = getFile w q := by
  unfold preprocess_release
  cases getFile w (yamlPath w.cwd) with
  | none => rfl
  | some content =>
    simp only
    have hw2 : getFile (writeFile (yamlPath w.cwd)
        (pyReplace oppiaserverTok app content)
        (removeFile (yamlPath w.cwd) w)) q = getFile w q := by
      rw [getFile_writeFile_ne _ _ hq1, getFile_removeFile_ne _ hq1]
    split
    · exact hw2
    · rw [copyAssetsLoop_getFile_stable, hw2]
      intro f hf
      show q ≠ dstAssetPath (writeFile _ _ (removeFile _ w)).cwd f
      exact hq2 f hf

theorem preprocess_release_yaml (app : Str) (w : World) (content : Str)
    (hy : getFile w (yamlPath w.cwd) = some content) :
    getFile (preprocess_release app w).1 (yamlPath w.cwd)
      = some (pyReplace oppiaserverTok app content) := by
  unfold preprocess_release
  rw [hy]
  dsimp only
  have hset : getFile (writeFile (yamlPath w.cwd)
      (pyReplace oppiaserverTok app content)
      (removeFile (yamlPath w.cwd) w)) (yamlPath w.cwd)
      = some (pyReplace oppiaserverTok app content) := getFile_writeFile_self _ _ _
  split
  · exact hset
  · rw [copyAssetsLoop_getFile_stable, hset]
    intro f hf
    show yamlPath w.cwd ≠ dstAssetPath w.cwd f
    have hmem : f = bannerName ∨ f = faviconName ∨ f = logoName := by
      simpa [splashPageFiles] using hf
    simp only [yamlPath, dstAssetPath_snoc]
    rcases hmem with rfl | rfl | rfl <;> exact snoc_ne_of_last_ne (by decide)

theorem pathExists_makedirs_mono {p : FsPath} {w : World} (d : FsPath)
    (h : pathExists p w = true) : pathExists p (makedirs d w) = true := by
  unfold pathExists at h
  rcases Bool.or_eq_true_iff.mp h with h1 | h1
  · unfold pathExists makedirs
    simp [List.any_append, h1]
  · unfold pathExists makedirs
    simp [h1]

theorem pathExists_ensure_mono {p : FsPath} (f : FsPath) {w : World}
    (h : pathExists p w = true) : pathExists p (ensure_directory_exists f w) = true := by
  unfold ensure_directory_exists
  split
  · exact h
  · exact pathExists_makedirs_mono _ h

theorem pathExists_append_dirs (w : World) (ds : List FsPath) (p : FsPath)
    (hds : ∀ a ∈ ds, a ≠ p) :
    pathExists p { w with dirs := w.dirs ++ ds } = pathExists p w := by
  unfold pathExists
  simp only [List.any_append]
  have hfa : (ds.any fun d => decide (d = p)) = false := by
    rw [Bool.eq_false_iff]
    intro hc
    obtain ⟨a, ha, hpa⟩ := List.any_eq_true.mp hc
    exact hds a ha (by simpa using hpa)
  rw [hfa]
  simp

theorem mem_ancestorsOf_length {d a : FsPath} (h : a ∈ ancestorsOf d) :
    a.length ≤ d.length ∧ 1 ≤ a.length := by
  obtain ⟨k, hk, hak⟩ : ∃ k < d.length, d.take (k + 1) = a := by
    simpa [ancestorsOf] using h
  constructor
  · rw [← hak, List.length_take]; omega
  · rw [← hak, List.length_take]; omega

theorem pathExists_ensure_self (f : FsPath) (w : World) :
    pathExists f (ensure_directory_exists f w) = pathExists f w := by
  unfold ensure_directory_exists
  split
  · rfl
  · show pathExists f (makedirs f.dropLast w) = pathExists f w
    unfold makedirs
    apply pathExists_append_dirs
    intro a ha
    have ha' := (List.mem_filter.mp ha).1
    have hlen := (mem_ancestorsOf_length ha').1
    have hlen1 := (mem_ancestorsOf_length ha').2
    have hdl : f.dropLast.length = f.length - 1 := List.length_dropLast f
    intro hc
    rw [hc] at hlen hlen1
    omega

/-! ### Concrete sample data used by the witnesses -/

def sampleApp : Str := "myapp".toList

def sampleT : DT := ⟨2026, 10, 12, 1, 2, 3⟩

def sampleCwd : FsPath := ["r".toList, "oppia".toList]

def sampleOracle : Cmd → Bool := fun _ => true

def ddImages : FsPath :=
  ["r".toList, "deploy_data".toList, "myapp".toList, "images".toList]

/-- A world in which a full deployment run succeeds. -/
def sampleWorld : World :=
  { cwd := sampleCwd,
    dirs := [["r".toList], sampleCwd,
      ["r".toList, "deploy_data".toList],
      ["r".toList, "deploy_data".toList, "myapp".toList], ddImages,
      sampleCwd ++ ["static".toList],
      sampleCwd ++ ["static".toList, "images".toList]],
    files := [
      (yamlPath sampleCwd, "x: oppiaserver".toList),
      (ddImages ++ ["banner.png".toList], "B".toList),
      (ddImages ++ ["favicon.ico".toList], "F".toList),
      (ddImages ++ ["logo.png".toList], "L".toList),
      (sampleCwd ++ ["static".toList, "images".toList, "banner.png".toList], "b".toList),
      (sampleCwd ++ ["static".toList, "images".toList, "favicon.ico".toList], "f".toList),
      (sampleCwd ++ ["static".toList, "images".toList, "logo.png".toList], "l".toList)],
    events := [] }

/-- A world whose working directory is not named `oppia`. -/
def badDirWorld : World :=
  { cwd := ["r".toList, "elsewhere".toList], dirs := [], files := [], events := [] }

/-! ### The claims -/

/-- C3: for every run that enters the scoped directory change, whether
the scoped block completes normally or raises, the working directory
after the scope exits equals the working directory current before entry,
and the body's exception is passed through unsuppressed by the scope. -/
theorem c3_cd_restores_and_propagates (p : FsPath)
    (body : World → World × Option Err) (w : World) :
    (withStmt (cdEnter p) cdExit body w).1.cwd = w.cwd ∧
    (withStmt (cdEnter p) cdExit body w).2 = (body { w with cwd := p }).2 := by
  rw [withStmt_cd_eq]
  exact ⟨rfl, rfl⟩

/-- C4: when the application-identifier argument is absent or the empty
string, the script raises immediately and the state is fully unchanged:
no directory created, no file copied or mutated, no log entry written. -/
theorem c4_missing_app_name (appArg : Option Str) (t : DT) (oracle : Cmd → Bool)
    (w : World) (h : appArg = none ∨ appArg = some []) :
    deployRun appArg t oracle w = (w, some Err.noAppName) := by
  rcases h with rfl | rfl
  · rfl
  · simp [deployRun]

theorem c4_missing_app_name_witness :
    ((none : Option Str) = none ∨ (none : Option Str) = some []) ∧
    deployRun none sampleT sampleOracle sampleWorld
      = (sampleWorld, some Err.noAppName) :=
  ⟨Or.inl rfl, c4_missing_app_name none sampleT sampleOracle sampleWorld (Or.inl rfl)⟩

/-- C5: the working-directory name precondition is checked twice, each
time by raising on mismatch: before the tree copy the current directory
must end with `oppia` — failing this the script raises with the world
unchanged, before any copy or mutation — and inside the scoped change
the current directory must end with the release directory name, again
raising on mismatch with no further effect. -/
theorem c5_working_dir_checks (app relName : Str) (t : DT) (oracle : Cmd → Bool)
    (w w' : World)
    (h1 : cwdEndsWith oppiaTok w.cwd = false)
    (h2 : cwdEndsWith relName w'.cwd = false) :
    deployWithApp app t oracle w = (w, some (Err.wrongStartDir w.cwd)) ∧
    insideRelease app relName t oracle w' = (w', some (Err.invalidDeployDir w'.cwd)) := by
  constructor
  · unfold deployWithApp
    rw [if_pos (by simp [h1])]
  · unfold insideRelease
    rw [if_pos (by simp [h2])]

theorem c5_working_dir_checks_witness :
    cwdEndsWith oppiaTok badDirWorld.cwd = false ∧
    cwdEndsWith (releaseDirName sampleApp sampleT) badDirWorld.cwd = false ∧
    (deployWithApp sampleApp sampleT sampleOracle badDirWorld
        = (badDirWorld, some (Err.wrongStartDir badDirWorld.cwd)) ∧
      insideRelease sampleApp (releaseDirName sampleApp sampleT) sampleT sampleOracle badDirWorld
        = (badDirWorld, some (Err.invalidDeployDir badDirWorld.cwd))) :=
  ⟨by decide, by decide,
    c5_working_dir_checks sampleApp (releaseDirName sampleApp sampleT) sampleT
      sampleOracle badDirWorld badDirWorld (by decide) (by decide)⟩

theorem digitChar_inj_lt10 :
    ∀ a < 10, ∀ b < 10, Nat.digitChar a = Nat.digitChar b → a = b := by
  decide

theorem pad2_inj {a b : Nat} (ha : a < 100) (hb : b < 100) (h : pad2 a = pad2 b) :
    a = b := by
  simp only [pad2, List.cons.injEq, and_true] at h
  obtain ⟨h1, h2⟩ := h
  have e1 : a / 10 = b / 10 := digitChar_inj_lt10 _ (by omega) _ (by omega) h1
  have e2 : a % 10 = b % 10 := digitChar_inj_lt10 _ (by omega) _ (by omega) h2
  omega

theorem pad4_inj {a b : Nat} (ha : a < 10000) (hb : b < 10000) (h : pad4 a = pad4 b) :
    a = b := by
  simp only [pad4, List.cons.injEq, and_true] at h
  obtain ⟨h1, h2, h3, h4⟩ := h
  have e1 : a / 1000 = b / 1000 := digitChar_inj_lt10 _ (by omega) _ (by omega) h1
  have e2 : a / 100 % 10 = b / 100 % 10 := digitChar_inj_lt10 _ (by omega) _ (by omega) h2
  have e3 : a / 10 % 10 = b / 10 % 10 := digitChar_inj_lt10 _ (by omega) _ (by omega) h3
  have e4 : a % 10 = b % 10 := digitChar_inj_lt10 _ (by omega) _ (by omega) h4
  omega

theorem fmtCompact_inj (t1 t2 : DT) (h1 : validDT t1) (h2 : validDT t2)
    (h : fmtCompact t1 = fmtCompact t2) : t1 = t2 := by
  obtain ⟨y1, mo1, d1, ho1, mi1, s1⟩ := t1
  obtain ⟨y2, mo2, d2, ho2, mi2, s2⟩ := t2
  simp only [validDT] at h1 h2
  obtain ⟨hy1a, hy1b, _, hmo1, _, hd1, hho1, hmi1, hs1⟩ := h1
  obtain ⟨hy2a, hy2b, _, hmo2, _, hd2, hho2, hmi2, hs2⟩ := h2
  simp only [fmtCompact] at h
  obtain ⟨h, hs⟩ := List.append_inj' h rfl
  obtain ⟨h, hmi⟩ := List.append_inj' h rfl
  obtain ⟨h, hho⟩ := List.append_inj' h rfl
  obtain ⟨h, _⟩ := List.append_inj' h rfl
  obtain ⟨h, hd⟩ := List.append_inj' h rfl
  obtain ⟨hy, hmo⟩ := List.append_inj' h rfl
  simp only [DT.mk.injEq]
  exact ⟨pad4_inj (by omega) (by omega) hy, pad2_inj (by omega) (by omega) hmo,
    pad2_inj (by omega) (by omega) hd, pad2_inj (by omega) (by omega) hho,
    pad2_inj (by omega) (by omega) hmi, pad2_inj (by omega) (by omega) hs⟩

theorem fmtHuman_inj (t1 t2 : DT) (h1 : validDT t1) (h2 : validDT t2)
    (h : fmtHuman t1 = fmtHuman t2) : t1 = t2 := by
  obtain ⟨y1, mo1, d1, ho1, mi1, s1⟩ := t1
  obtain ⟨y2, mo2, d2, ho2, mi2, s2⟩ := t2
  simp only [validDT] at h1 h2
  obtain ⟨hy1a, hy1b, _, hmo1, _, hd1, hho1, hmi1, hs1⟩ := h1
  obtain ⟨hy2a, hy2b, _, hmo2, _, hd2, hho2, hmi2, hs2⟩ := h2
  simp only [fmtHuman] at h
  obtain ⟨h, hs⟩ := List.append_inj' h rfl
  obtain ⟨h, _⟩ := List.append_inj' h rfl
  obtain ⟨h, hmi⟩ := List.append_inj' h rfl
  obtain ⟨h, _⟩ := List.append_inj' h rfl
  obtain ⟨h, hho⟩ := List.append_inj' h rfl
  obtain ⟨h, _⟩ := List.append_inj' h rfl
  obtain ⟨h, hd⟩ := List.append_inj' h rfl
  obtain ⟨h, _⟩ := List.append_inj' h rfl
  obtain ⟨h, hmo⟩ := List.append_inj' h rfl
  obtain ⟨hy, _⟩ := List.append_inj' h rfl
  simp only [DT.mk.injEq]
  exact ⟨pad4_inj (by omega) (by omega) hy, pad2_inj (by omega) (by omega) hmo,
    pad2_inj (by omega) (by omega) hd, pad2_inj (by omega) (by omega) hho,
    pad2_inj (by omega) (by omega) hmi, pad2_inj (by omega) (by omega) hs⟩

/-- C6: for every valid application identifier the computed release
directory name has exactly the form `<app>-deploy-<YYYYMMDD-HHMMSS>`
(a 15-character second-resolution timestamp block), the release path is
a sibling of the project root, and the name determines the timestamp,
so names from invocations at distinct seconds are distinct. -/
theorem c6_release_dir_name (app : Str) (cwd : FsPath) (t1 t2 : DT)
    (h1 : validDT t1) (h2 : validDT t2) :
    releaseDirName app t1 = app ++ "-deploy-".toList ++ fmtCompact t1 ∧
    (fmtCompact t1).length = 15 ∧
    resolvePath cwd [dotdot, releaseDirName app t1]
      = cwd.dropLast ++ [releaseDirName app t1] ∧
    (releaseDirName app t1 = releaseDirName app t2 → t1 = t2) := by
  refine ⟨rfl, fmtCompact_length t1, releaseDirPath_eq cwd app t1, ?_⟩
  intro h
  have h' : fmtCompact t1 = fmtCompact t2 := by
    simp only [releaseDirName] at h
    exact List.append_cancel_left h
  exact fmtCompact_inj t1 t2 h1 h2 h'

theorem c6_release_dir_name_witness :
    validDT sampleT ∧
    (releaseDirName sampleApp sampleT
        = sampleApp ++ "-deploy-".toList ++ fmtCompact sampleT ∧
      (fmtCompact sampleT).length = 15 ∧
      resolvePath sampleCwd [dotdot, releaseDirName sampleApp sampleT]
        = sampleCwd.dropLast ++ [releaseDirName sampleApp sampleT] ∧
      (releaseDirName sampleApp sampleT = releaseDirName sampleApp sampleT →
        sampleT = sampleT)) :=
  ⟨by decide,
    c6_release_dir_name sampleApp sampleCwd sampleT sampleT (by decide) (by decide)⟩

/-- A world in which the computed release directory already exists. -/
def clashWorld : World :=
  { cwd := sampleCwd,
    dirs := [["r".toList], sampleCwd,
      ["r".toList, releaseDirName sampleApp sampleT]],
    files := [(yamlPath sampleCwd, "x: oppiaserver".toList)],
    events := [] }

/-- C9: `ensure_directory_exists` creates only the parent directory of
the path it is given — the path itself exists afterwards exactly when it
existed before, and no file is touched — and when a directory with the
computed release name already exists the tree copy raises naming that
existing destination and the run aborts with every file, in particular
the contents of the existing directory, unchanged. -/
theorem c9_no_overwrite (f : FsPath) (app : Str) (t : DT) (oracle : Cmd → Bool)
    (w : World)
    (hex : pathExists (resolvePath w.cwd [dotdot, releaseDirName app t]) w = true)
    (hdir : cwdEndsWith oppiaTok w.cwd = true) :
    ((ensure_directory_exists f w).files = w.files ∧
      pathExists f (ensure_directory_exists f w) = pathExists f w) ∧
    ((deployWithApp app t oracle w).2
        = some (Err.destExists (resolvePath w.cwd [dotdot, releaseDirName app t])) ∧
      (deployWithApp app t oracle w).1.files = w.files) := by
  refine ⟨⟨ensure_directory_exists_files f w, pathExists_ensure_self f w⟩, ?_⟩
  unfold deployWithApp
  dsimp only
  rw [if_neg (by simp [hdir])]
  have hex1 : pathExists (resolvePath w.cwd [dotdot, releaseDirName app t])
      (ensure_directory_exists (resolvePath w.cwd [dotdot, releaseDirName app t]) w)
      = true := pathExists_ensure_mono _ hex
  have hcwd : (ensure_directory_exists
      (resolvePath w.cwd [dotdot, releaseDirName app t]) w).cwd = w.cwd :=
    ensure_directory_exists_cwd _ w
  rw [copytree_fail hex1]
  unfold seqE
  exact ⟨rfl, ensure_directory_exists_files _ w⟩

theorem c9_no_overwrite_witness :
    pathExists (resolvePath clashWorld.cwd
        [dotdot, releaseDirName sampleApp sampleT]) clashWorld = true ∧
    cwdEndsWith oppiaTok clashWorld.cwd = true ∧
    (((ensure_directory_exists (resolvePath clashWorld.cwd
          [dotdot, releaseDirName sampleApp sampleT]) clashWorld).files
        = clashWorld.files ∧
      pathExists (resolvePath clashWorld.cwd [dotdot, releaseDirName sampleApp sampleT])
          (ensure_directory_exists (resolvePath clashWorld.cwd
            [dotdot, releaseDirName sampleApp sampleT]) clashWorld)
        = pathExists (resolvePath clashWorld.cwd
            [dotdot, releaseDirName sampleApp sampleT]) clashWorld) ∧
      ((deployWithApp sampleApp sampleT sampleOracle clashWorld).2
          = some (Err.destExists (resolvePath clashWorld.cwd
              [dotdot, releaseDirName sampleApp sampleT])) ∧
        (deployWithApp sampleApp sampleT sampleOracle clashWorld).1.files
          = clashWorld.files)) :=
  ⟨by decide, by decide,
    c9_no_overwrite (resolvePath clashWorld.cwd
        [dotdot, releaseDirName sampleApp sampleT])
      sampleApp sampleT sampleOracle clashWorld (by decide) (by decide)⟩

theorem appendFile_events (p : FsPath) (s : Str) (w : World) :
    (appendFile p s w).events = w.events := by
  unfold appendFile
  cases getFile w p <;> rfl

theorem appendFile_cwd (p : FsPath) (s : Str) (w : World) :
    (appendFile p s w).cwd = w.cwd := by
  unfold appendFile
  cases getFile w p <;> rfl

theorem subprocess_check_output_eq (c : Cmd) (oracle : Cmd → Bool) (w : World) :
    subprocess_check_output c oracle w
      = ({ w with events := w.events ++ [c] },
         if oracle c then none else some (Err.cmdFailed c)) := by
  unfold subprocess_check_output
  by_cases h : oracle c = true
  · rw [if_pos h, if_pos h]
  · rw [if_neg h, if_neg h]

/-- The fixed order in which the three external commands are issued. -/
def cmdSeq : List Cmd := [Cmd.build, Cmd.tests, Cmd.publish]

theorem insideRelease_events (app relName : Str) (t : DT) (oracle : Cmd → Bool)
    (w : World) :
    ∃ n ≤ 3,
      (insideRelease app relName t oracle w).1.events = w.events ++ cmdSeq.take n ∧
      (Cmd.tests ∈ cmdSeq.take n → oracle Cmd.build = true) ∧
      (Cmd.publish ∈ cmdSeq.take n →
        oracle Cmd.build = true ∧ oracle Cmd.tests = true) ∧
      (∀ c ∈ cmdSeq.take n, oracle c = false →
        (insideRelease app relName t oracle w).2 = some (Err.cmdFailed c)) := by
  unfold insideRelease
  by_cases hck : (!cwdEndsWith relName w.cwd) = true
  · rw [if_pos hck]
    exact ⟨0, by omega, by simp [cmdSeq], by simp [cmdSeq], by simp [cmdSeq],
      by simp [cmdSeq]⟩
  · rw [if_neg hck]
    rcases hpre : preprocess_release app w with ⟨wp, e⟩
    have hevp : wp.events = w.events := by
      have h := preprocess_release_events app w
      rw [hpre] at h
      exact h
    cases e with
    | some err =>
      simp only [seqE]
      exact ⟨0, by omega, by simp [cmdSeq, hevp], by simp [cmdSeq], by simp [cmdSeq],
        by simp [cmdSeq]⟩
    | none =>
      simp only [seqE, subprocess_check_output_eq]
      by_cases hb : oracle Cmd.build = true
      · rw [if_pos hb]
        simp only [seqE]
        by_cases ht : oracle Cmd.tests = true
        · rw [if_pos ht]
          simp only [seqE]
          by_cases hp : oracle Cmd.publish = true
          · rw [if_pos hp]
            simp only [seqE]
            refine ⟨3, by omega, ?_, fun _ => hb, fun _ => ⟨hb, ht⟩, ?_⟩
            · rw [appendFile_events, ensure_directory_exists_events]
              simp [cmdSeq, hevp]
            · intro c hc hcf
              have : oracle c = true := by
                simp only [cmdSeq, List.take, List.mem_cons,
                  List.not_mem_nil, or_false] at hc
                rcases hc with rfl | rfl | rfl
                · exact hb
                · exact ht
                · exact hp
              rw [this] at hcf
              exact absurd hcf (by simp)
          · rw [if_neg hp]
            simp only [seqE]
            refine ⟨3, by omega, by simp [cmdSeq, hevp], fun _ => hb,
              fun _ => ⟨hb, ht⟩, ?_⟩
            intro c hc hcf
            simp only [cmdSeq, List.take, List.mem_cons,
              List.not_mem_nil, or_false] at hc
            rcases hc with rfl | rfl | rfl
            · rw [hb] at hcf; exact absurd hcf (by simp)
            · rw [ht] at hcf; exact absurd hcf (by simp)
            · rfl
        · rw [if_neg ht]
          simp only [seqE]
          refine ⟨2, by omega, by simp [cmdSeq, hevp], fun _ => hb, ?_, ?_⟩
          · intro hmem
            exact absurd hmem (by simp [cmdSeq])
          · intro c hc hcf
            simp only [cmdSeq, List.take, List.mem_cons,
              List.not_mem_nil, or_false] at hc
            rcases hc with rfl | rfl
            · rw [hb] at hcf; exact absurd hcf (by simp)
            · rfl
      · rw [if_neg hb]
        simp only [seqE]
        refine ⟨1, by omega, by simp [cmdSeq, hevp], ?_, ?_, ?_⟩
        · intro hmem
          exact absurd hmem (by simp [cmdSeq])
        · intro hmem
          exact absurd hmem (by simp [cmdSeq])
        · intro c hc hcf
          simp only [cmdSeq, List.take, List.mem_cons,
            List.not_mem_nil, or_false] at hc
          rcases hc with rfl
          rfl

/-- C7: in every run the build, test and publish commands are invoked
in that fixed order: the commands recorded are always an initial
segment of `[build, tests, publish]`, the test command starts only
after the build exited successfully, the publish command only after
both build and test succeeded, and a non-zero exit from whichever of
the three ran last raises `CalledProcessError`, aborting the run. -/
theorem c7_command_order (app : Str) (t : DT) (oracle : Cmd → Bool) (w : World) :
    ∃ n ≤ 3,
      (deployWithApp app t oracle w).1.events = w.events ++ cmdSeq.take n ∧
      (Cmd.tests ∈ cmdSeq.take n → oracle Cmd.build = true) ∧
      (Cmd.publish ∈ cmdSeq.take n →
        oracle Cmd.build = true ∧ oracle Cmd.tests = true) ∧
      (∀ c ∈ cmdSeq.take n, oracle c = false →
        (deployWithApp app t oracle w).2 = some (Err.cmdFailed c)) := by
  unfold deployWithApp
  dsimp only
  by_cases hc : (!cwdEndsWith oppiaTok w.cwd) = true
  · rw [if_pos hc]
    exact ⟨0, by omega, by simp [cmdSeq], by simp [cmdSeq], by simp [cmdSeq],
      by simp [cmdSeq]⟩
  · rw [if_neg hc]
    by_cases hex : pathExists (resolvePath w.cwd [dotdot, releaseDirName app t])
        (ensure_directory_exists (resolvePath w.cwd [dotdot, releaseDirName app t]) w)
        = true
    · rw [copytree_fail hex]
      simp only [seqE]
      refine ⟨0, by omega, ?_, by simp [cmdSeq], by simp [cmdSeq], by simp [cmdSeq]⟩
      rw [ensure_directory_exists_events]
      simp [cmdSeq]
    · have hex' : pathExists (resolvePath w.cwd [dotdot, releaseDirName app t])
          (ensure_directory_exists (resolvePath w.cwd [dotdot, releaseDirName app t]) w)
          = false := by
        rw [Bool.eq_false_iff]; exact hex
      rcases hct : copytree
          (ensure_directory_exists (resolvePath w.cwd [dotdot, releaseDirName app t]) w).cwd
          (resolvePath w.cwd [dotdot, releaseDirName app t])
          (ensure_directory_exists (resolvePath w.cwd [dotdot, releaseDirName app t]) w)
        with ⟨w2, e2⟩
      have he2 : e2 = none := by
        have h := @copytree_ok_snd
          (ensure_directory_exists
            (resolvePath w.cwd [dotdot, releaseDirName app t]) w).cwd
          (resolvePath w.cwd [dotdot, releaseDirName app t])
          (ensure_directory_exists (resolvePath w.cwd [dotdot, releaseDirName app t]) w)
          hex'
        rw [hct] at h
        exact h
      subst he2
      simp only [seqE]
      rw [withStmt_cd_eq]
      have hev2 : w2.events = w.events := by
        have h := @copytree_ok_events
          (ensure_directory_exists
            (resolvePath w.cwd [dotdot, releaseDirName app t]) w).cwd
          (resolvePath w.cwd [dotdot, releaseDirName app t])
          (ensure_directory_exists (resolvePath w.cwd [dotdot, releaseDirName app t]) w)
          hex'
        rw [hct] at h
        rw [h, ensure_directory_exists_events]
      obtain ⟨n, hn, hev, hB, hC, hD⟩ := insideRelease_events app
        (releaseDirName app t) t oracle
        { w2 with cwd := resolvePath w.cwd [dotdot, releaseDirName app t] }
      refine ⟨n, hn, ?_, hB, hC, hD⟩
      show (insideRelease app (releaseDirName app t) t oracle
        { w2 with cwd := resolvePath w.cwd [dotdot, releaseDirName app t] }).1.events
        = w.events ++ cmdSeq.take n
      rw [hev]
      show w2.events ++ cmdSeq.take n = w.events ++ cmdSeq.take n
      rw [hev2]

theorem getFile_appendFile_self (p : FsPath) (s : Str) (w : World) :
    getFile (appendFile p s w) p = some ((getFile w p).getD [] ++ s) := by
  unfold appendFile
  cases h : getFile w p with
  | none => rw [getFile_writeFile_self]; simp
  | some c => rw [getFile_writeFile_self]; simp

theorem insideRelease_log (app relName : Str) (t : DT) (oracle : Cmd → Bool)
    (w : World) (parent : FsPath) (hw : w.cwd = parent ++ [relName]) :
    ((insideRelease app relName t oracle w).2 = none →
      getFile (insideRelease app relName t oracle w).1 (parent ++ [deployLogName])
        = some ((getFile w (parent ++ [deployLogName])).getD [] ++ logLine app t)) ∧
    ((insideRelease app relName t oracle w).2 ≠ none →
      getFile (insideRelease app relName t oracle w).1 (parent ++ [deployLogName])
        = getFile w (parent ++ [deployLogName])) := by
  unfold insideRelease
  rw [hw, cwdEndsWith_snoc_self]
  rw [if_neg (by simp)]
  rcases hpre : preprocess_release app w with ⟨wp, e⟩
  have hstable : getFile wp (parent ++ [deployLogName])
      = getFile w (parent ++ [deployLogName]) := by
    have h := preprocess_release_getFile_stable app w (parent ++ [deployLogName])
      (by
        rw [hw]
        show parent ++ [deployLogName] ≠ (parent ++ [relName]) ++ [appYamlName]
        exact snoc_ne_of_last_ne (by decide))
      (by
        intro f hf
        rw [hw, dstAssetPath_snoc]
        have hmem : f = bannerName ∨ f = faviconName ∨ f = logoName := by
          simpa [splashPageFiles] using hf
        rcases hmem with rfl | rfl | rfl <;> exact snoc_ne_of_last_ne (by decide))
    rw [hpre] at h
    exact h
  have hcwdp : wp.cwd = parent ++ [relName] := by
    have h := preprocess_release_cwd app w
    rw [hpre] at h
    rw [h, hw]
  cases e with
  | some err =>
    simp only [seqE]
    constructor
    · intro h; exact absurd h (by simp)
    · intro _; exact hstable
  | none =>
    simp only [seqE, subprocess_check_output_eq]
    by_cases hb : oracle Cmd.build = true
    · rw [if_pos hb]
      simp only [seqE, subprocess_check_output_eq]
      by_cases ht : oracle Cmd.tests = true
      · rw [if_pos ht]
        simp only [seqE, subprocess_check_output_eq]
        by_cases hp : oracle Cmd.publish = true
        · rw [if_pos hp]
          simp only [seqE]
          constructor
          · intro _
            have hcwdW4 : (ensure_directory_exists (logFilePath wp.cwd)
                { cwd := wp.cwd, dirs := wp.dirs, files := wp.files,
                  events := wp.events ++ [Cmd.build] ++ [Cmd.tests] ++ [Cmd.publish] }).cwd
                = parent ++ [relName] := by
              rw [ensure_directory_exists_cwd]
              exact hcwdp
            rw [hcwdW4]
            rw [show logFilePath (parent ++ [relName]) = parent ++ [deployLogName] from by
              rw [logFilePath_eq, List.dropLast_concat]]
            rw [getFile_appendFile_self, getFile_ensure_directory_exists]
            have hW4 : getFile
                { cwd := wp.cwd, dirs := wp.dirs, files := wp.files,
                  events := wp.events ++ [Cmd.build] ++ [Cmd.tests] ++ [Cmd.publish] }
                (parent ++ [deployLogName])
                = getFile wp (parent ++ [deployLogName]) := rfl
            rw [hW4, hstable]
          · intro h; exact absurd rfl h
        · rw [if_neg hp]
          simp only [seqE]
          constructor
          · intro h; exact absurd h (by simp)
          · intro _
            exact hstable
      · rw [if_neg ht]
        simp only [seqE]
        constructor
        · intro h; exact absurd h (by simp)
        · intro _
          exact hstable
    · rw [if_neg hb]
      simp only [seqE]
      constructor
      · intro h; exact absurd h (by simp)
      · intro _
        exact hstable

/-- The full characterisation of what a deployment run does to the log
file: one appended line on success, nothing on failure. -/
theorem deploy_log_spec (app : Str) (t : DT) (oracle : Cmd → Bool) (w : World) :
    ((deployWithApp app t oracle w).2 = none →
      getFile (deployWithApp app t oracle w).1
          (logFilePath (resolvePath w.cwd [dotdot, releaseDirName app t]))
        = some ((getFile w (logFilePath (resolvePath w.cwd
            [dotdot, releaseDirName app t]))).getD [] ++ logLine app t)) ∧
    (∀ e, (deployWithApp app t oracle w).2 = some e →
      getFile (deployWithApp app t oracle w).1
          (logFilePath (resolvePath w.cwd [dotdot, releaseDirName app t]))
        = getFile w (logFilePath (resolvePath w.cwd
            [dotdot, releaseDirName app t]))) := by
  have hrelP : resolvePath w.cwd [dotdot, releaseDirName app t]
      = w.cwd.dropLast ++ [releaseDirName app t] := releaseDirPath_eq w.cwd app t
  have hlogP : logFilePath (resolvePath w.cwd [dotdot, releaseDirName app t])
      = w.cwd.dropLast ++ [deployLogName] := by
    rw [hrelP, logFilePath_eq, List.dropLast_concat]
  rw [hlogP]
  unfold deployWithApp
  dsimp only
  by_cases hc : (!cwdEndsWith oppiaTok w.cwd) = true
  · rw [if_pos hc]
    exact ⟨fun h => absurd h (by simp), fun e he => rfl⟩
  · rw [if_neg hc]
    by_cases hex : pathExists (resolvePath w.cwd [dotdot, releaseDirName app t])
        (ensure_directory_exists
          (resolvePath w.cwd [dotdot, releaseDirName app t]) w) = true
    · rw [copytree_fail hex]
      simp only [seqE]
      exact ⟨fun h => absurd h (by simp),
        fun e he => getFile_ensure_directory_exists _ _ w⟩
    · have hex' : pathExists (resolvePath w.cwd [dotdot, releaseDirName app t])
          (ensure_directory_exists
            (resolvePath w.cwd [dotdot, releaseDirName app t]) w) = false :=
        Bool.eq_false_iff.mpr hex
      rcases hct : copytree
          (ensure_directory_exists
            (resolvePath w.cwd [dotdot, releaseDirName app t]) w).cwd
          (resolvePath w.cwd [dotdot, releaseDirName app t])
          (ensure_directory_exists
            (resolvePath w.cwd [dotdot, releaseDirName app t]) w)
        with ⟨w2, e2⟩
      have he2 : e2 = none := by
        have h := @copytree_ok_snd
          (ensure_directory_exists
            (resolvePath w.cwd [dotdot, releaseDirName app t]) w).cwd
          (resolvePath w.cwd [dotdot, releaseDirName app t])
          (ensure_directory_exists
            (resolvePath w.cwd [dotdot, releaseDirName app t]) w) hex'
        rw [hct] at h
        exact h
      subst he2
      simp only [seqE]
      rw [withStmt_cd_eq]
      have hq : ∀ rel, rel ≠ [] → w.cwd.dropLast ++ [deployLogName]
          ≠ resolvePath w.cwd [dotdot, releaseDirName app t] ++ rel := by
        intro rel hrel hcontra
        rw [hrelP] at hcontra
        have hlen := congrArg List.length hcontra
        simp only [List.length_append, List.length_cons, List.length_nil] at hlen
        exact hrel (List.length_eq_zero.mp (by omega))
      have hchain : getFile w2 (w.cwd.dropLast ++ [deployLogName])
          = getFile w (w.cwd.dropLast ++ [deployLogName]) := by
        have h := @copytree_ok_getFile_stable
          (ensure_directory_exists
            (resolvePath w.cwd [dotdot, releaseDirName app t]) w).cwd
          (resolvePath w.cwd [dotdot, releaseDirName app t])
          (ensure_directory_exists
            (resolvePath w.cwd [dotdot, releaseDirName app t]) w)
          (w.cwd.dropLast ++ [deployLogName]) hex' hq
        rw [hct] at h
        rw [h, getFile_ensure_directory_exists]
      obtain ⟨hS, hF⟩ := insideRelease_log app (releaseDirName app t) t oracle
        { w2 with cwd := resolvePath w.cwd [dotdot, releaseDirName app t] }
        w.cwd.dropLast hrelP
      constructor
      · intro h
        have hupd : getFile
            { (insideRelease app (releaseDirName app t) t oracle
                { w2 with cwd := (resolvePath w.cwd
                    [dotdot, releaseDirName app t]) }).1 with cwd := w2.cwd }
            (w.cwd.dropLast ++ [deployLogName])
            = getFile (insideRelease app (releaseDirName app t) t oracle
                { w2 with cwd := (resolvePath w.cwd
                    [dotdot, releaseDirName app t]) }).1
              (w.cwd.dropLast ++ [deployLogName]) := rfl
        rw [hupd, hS h]
        have hin : getFile
            { w2 with cwd := resolvePath w.cwd [dotdot, releaseDirName app t] }
            (w.cwd.dropLast ++ [deployLogName])
            = getFile w2 (w.cwd.dropLast ++ [deployLogName]) := rfl
        rw [hin, hchain]
      · intro e he
        have hupd : getFile
            { (insideRelease app (releaseDirName app t) t oracle
                { w2 with cwd := (resolvePath w.cwd
                    [dotdot, releaseDirName app t]) }).1 with cwd := w2.cwd }
            (w.cwd.dropLast ++ [deployLogName])
            = getFile (insideRelease app (releaseDirName app t) t oracle
                { w2 with cwd := (resolvePath w.cwd
                    [dotdot, releaseDirName app t]) }).1
              (w.cwd.dropLast ++ [deployLogName]) := rfl
        rw [hupd, hF (by rw [he]; simp)]
        have hin : getFile
            { w2 with cwd := resolvePath w.cwd [dotdot, releaseDirName app t] }
            (w.cwd.dropLast ++ [deployLogName])
            = getFile w2 (w.cwd.dropLast ++ [deployLogName]) := rfl
        rw [hin, hchain]

/-- C8: on successful completion of build, tests and publish, exactly
one write is appended to the log file `../deploy.log` (after creating
its parent directory if absent), namely the line
`Successfully deployed to <app> at <YYYY-MM-DD HH:MM:SS>` with a
trailing newline; on a failed run no log line is written. -/
theorem c8_log_append (app : Str) (t : DT) (oracle : Cmd → Bool) (w : World) :
    ((deployWithApp app t oracle w).2 = none →
      getFile (deployWithApp app t oracle w).1
          (logFilePath (resolvePath w.cwd [dotdot, releaseDirName app t]))
        = some ((getFile w (logFilePath (resolvePath w.cwd
            [dotdot, releaseDirName app t]))).getD [] ++ logLine app t)) ∧
    (∀ e, (deployWithApp app t oracle w).2 = some e →
      getFile (deployWithApp app t oracle w).1
          (logFilePath (resolvePath w.cwd [dotdot, releaseDirName app t]))
        = getFile w (logFilePath (resolvePath w.cwd
            [dotdot, releaseDirName app t]))) :=
  deploy_log_spec app t oracle w

theorem c8_log_append_witness :
    (deployWithApp sampleApp sampleT sampleOracle sampleWorld).2 = none ∧
    getFile (deployWithApp sampleApp sampleT sampleOracle sampleWorld).1
        (logFilePath (resolvePath sampleWorld.cwd
          [dotdot, releaseDirName sampleApp sampleT]))
      = some ((getFile sampleWorld (logFilePath (resolvePath sampleWorld.cwd
          [dotdot, releaseDirName sampleApp sampleT]))).getD []
          ++ logLine sampleApp sampleT) :=
  ⟨by decide,
    (c8_log_append sampleApp sampleT sampleOracle sampleWorld).1 (by decide)⟩

theorem appendFile_dirs (p : FsPath) (s : Str) (w : World) :
    (appendFile p s w).dirs = w.dirs := by
  unfold appendFile
  cases getFile w p <;> rfl

theorem insideRelease_mem_dirs (app relName : Str) (t : DT) (oracle : Cmd → Bool)
    (w : World) {d : FsPath} (hd : d ∈ w.dirs) :
    d ∈ (insideRelease app relName t oracle w).1.dirs := by
  unfold insideRelease
  by_cases hck : (!cwdEndsWith relName w.cwd) = true
  · rw [if_pos hck]
    exact hd
  · rw [if_neg hck]
    rcases hpre : preprocess_release app w with ⟨wp, e⟩
    have hdp : wp.dirs = w.dirs := by
      have h := preprocess_release_dirs app w
      rw [hpre] at h
      exact h
    cases e with
    | some err =>
      simp only [seqE]
      rw [hdp]
      exact hd
    | none =>
      simp only [seqE, subprocess_check_output_eq]
      by_cases hb : oracle Cmd.build = true
      · rw [if_pos hb]
        simp only [seqE, subprocess_check_output_eq]
        by_cases ht : oracle Cmd.tests = true
        · rw [if_pos ht]
          simp only [seqE, subprocess_check_output_eq]
          by_cases hp : oracle Cmd.publish = true
          · rw [if_pos hp]
            simp only [seqE]
            rw [appendFile_dirs]
            apply mem_dirs_ensure_directory_exists
            show d ∈ wp.dirs
            rw [hdp]
            exact hd
          · rw [if_neg hp]
            simp only [seqE]
            show d ∈ wp.dirs
            rw [hdp]
            exact hd
        · rw [if_neg ht]
          simp only [seqE]
          show d ∈ wp.dirs
          rw [hdp]
          exact hd
      · rw [if_neg hb]
        simp only [seqE]
        show d ∈ wp.dirs
        rw [hdp]
        exact hd

/-- On a successful run the release directory the run created is still
present at the end. -/
theorem deploy_release_dir_exists (app : Str) (t : DT) (oracle : Cmd → Bool)
    (w : World) (hsucc : (deployWithApp app t oracle w).2 = none) :
    pathExists (resolvePath w.cwd [dotdot, releaseDirName app t])
      (deployWithApp app t oracle w).1 = true := by
  unfold deployWithApp at hsucc ⊢
  dsimp only at hsucc ⊢
  by_cases hc : (!cwdEndsWith oppiaTok w.cwd) = true
  · rw [if_pos hc] at hsucc
    exact absurd hsucc (by simp)
  · rw [if_neg hc] at hsucc ⊢
    by_cases hex : pathExists (resolvePath w.cwd [dotdot, releaseDirName app t])
        (ensure_directory_exists
          (resolvePath w.cwd [dotdot, releaseDirName app t]) w) = true
    · rw [copytree_fail hex] at hsucc
      simp only [seqE] at hsucc
      exact absurd hsucc (by simp)
    · have hex' : pathExists (resolvePath w.cwd [dotdot, releaseDirName app t])
          (ensure_directory_exists
            (resolvePath w.cwd [dotdot, releaseDirName app t]) w) = false :=
        Bool.eq_false_iff.mpr hex
      rcases hct : copytree
          (ensure_directory_exists
            (resolvePath w.cwd [dotdot, releaseDirName app t]) w).cwd
          (resolvePath w.cwd [dotdot, releaseDirName app t])
          (ensure_directory_exists
            (resolvePath w.cwd [dotdot, releaseDirName app t]) w)
        with ⟨w2, e2⟩
      have he2 : e2 = none := by
        have h := @copytree_ok_snd
          (ensure_directory_exists
            (resolvePath w.cwd [dotdot, releaseDirName app t]) w).cwd
          (resolvePath w.cwd [dotdot, releaseDirName app t])
          (ensure_directory_exists
            (resolvePath w.cwd [dotdot, releaseDirName app t]) w) hex'
        rw [hct] at h
        exact h
      subst he2
      simp only [seqE]
      rw [withStmt_cd_eq]
      have hmem2 : resolvePath w.cwd [dotdot, releaseDirName app t] ∈ w2.dirs := by
        have h := @copytree_ok_mem_dirs
          (ensure_directory_exists
            (resolvePath w.cwd [dotdot, releaseDirName app t]) w).cwd
          (resolvePath w.cwd [dotdot, releaseDirName app t])
          (ensure_directory_exists
            (resolvePath w.cwd [dotdot, releaseDirName app t]) w) hex'
        rw [hct] at h
        exact h
      apply pathExists_of_mem_dirs
      show resolvePath w.cwd [dotdot, releaseDirName app t]
        ∈ (insideRelease app (releaseDirName app t) t oracle
            { w2 with cwd := (resolvePath w.cwd [dotdot, releaseDirName app t]) }).1.dirs
      exact insideRelease_mem_dirs app (releaseDirName app t) t oracle
        { w2 with cwd := (resolvePath w.cwd [dotdot, releaseDirName app t]) } hmem2

/-- C10: the timestamp in the success log line and the timestamp in the
release directory name come from the single `CURRENT_DATETIME` captured
at process start: on success the appended line carries `fmtHuman t` and
the surviving release directory carries `fmtCompact t` of the very same
`t`, and the human-readable stamp determines the compact stamp. -/
theorem c10_single_timestamp (app : Str) (t : DT) (oracle : Cmd → Bool) (w : World)
    (hv : validDT t) (hsucc : (deployWithApp app t oracle w).2 = none) :
    getFile (deployWithApp app t oracle w).1
        (logFilePath (resolvePath w.cwd [dotdot, releaseDirName app t]))
      = some ((getFile w (logFilePath (resolvePath w.cwd
          [dotdot, releaseDirName app t]))).getD [] ++ logLine app t) ∧
    pathExists (resolvePath w.cwd [dotdot, releaseDirName app t])
      (deployWithApp app t oracle w).1 = true ∧
    (∀ t', validDT t' → fmtHuman t = fmtHuman t' → fmtCompact t = fmtCompact t') :=
  ⟨(deploy_log_spec app t oracle w).1 hsucc,
    deploy_release_dir_exists app t oracle w hsucc,
    fun t' hv' hh => congrArg fmtCompact (fmtHuman_inj t t' hv hv' hh)⟩

theorem c10_single_timestamp_witness :
    validDT sampleT ∧
    (deployWithApp sampleApp sampleT sampleOracle sampleWorld).2 = none ∧
    (getFile (deployWithApp sampleApp sampleT sampleOracle sampleWorld).1
        (logFilePath (resolvePath sampleWorld.cwd
          [dotdot, releaseDirName sampleApp sampleT]))
      = some ((getFile sampleWorld (logFilePath (resolvePath sampleWorld.cwd
          [dotdot, releaseDirName sampleApp sampleT]))).getD []
          ++ logLine sampleApp sampleT) ∧
    pathExists (resolvePath sampleWorld.cwd
        [dotdot, releaseDirName sampleApp sampleT])
      (deployWithApp sampleApp sampleT sampleOracle sampleWorld).1 = true ∧
    (∀ t', validDT t' → fmtHuman sampleT = fmtHuman t' →
      fmtCompact sampleT = fmtCompact t')) :=
  ⟨by decide, by decide,
    c10_single_timestamp sampleApp sampleT sampleOracle sampleWorld
      (by decide) (by decide)⟩

theorem pathExists_writeFile_self (p : FsPath) (c : Str) (w : World) :
    pathExists p (writeFile p c w) = true := by
  unfold pathExists writeFile
  simp only [List.any_append]
  have : (([(p, c)]).any fun e => decide (e.1 = p)) = true := by simp
  rw [this]
  simp

theorem pathExists_removeFile_ne {q p : FsPath} (w : World) (h : q ≠ p) :
    pathExists q (removeFile p w) = pathExists q w := by
  unfold pathExists removeFile
  rw [any_filter_ne_key _ _ _ h]

theorem copyAssetsLoop_missing (dd : FsPath) :
    ∀ (names : List Str) (w : World), names.Nodup →
    (∃ g ∈ names, pathExists (dd ++ [imagesName, g]) w = false ∨
      pathExists (dstAssetPath w.cwd g) w = false) →
    ∃ p, ((copyAssetsLoop dd names w).2 = some (Err.missingSrc p) ∨
          (copyAssetsLoop dd names w).2 = some (Err.missingDst p)) ∧
      pathExists p w = false ∧
      ∃ g ∈ names, p = dd ++ [imagesName, g] ∨ p = dstAssetPath w.cwd g := by
  intro names
  induction names with
  | nil =>
    intro w _ hex
    simp at hex
  | cons f rest ih =>
    intro w hnd hex
    unfold copyAssetsLoop
    dsimp only
    by_cases hsrc : pathExists (dd ++ [imagesName, f]) w = false
    · rw [if_pos (by simp [hsrc])]
      exact ⟨dd ++ [imagesName, f], Or.inl rfl, hsrc, f,
        List.mem_cons_self f rest, Or.inl rfl⟩
    · have hsrc' : pathExists (dd ++ [imagesName, f]) w = true := by
        cases h : pathExists (dd ++ [imagesName, f]) w
        · exact absurd h hsrc
        · rfl
      rw [if_neg (by simp [hsrc'])]
      by_cases hdst : pathExists (dstAssetPath w.cwd f) w = false
      · rw [if_pos (by simp [hdst])]
        exact ⟨dstAssetPath w.cwd f, Or.inr rfl, hdst, f,
          List.mem_cons_self f rest, Or.inr rfl⟩
      · have hdst' : pathExists (dstAssetPath w.cwd f) w = true := by
          cases h : pathExists (dstAssetPath w.cwd f) w
          · exact absurd h hdst
          · rfl
        rw [if_neg (by simp [hdst'])]
        obtain ⟨g, hg, hmiss⟩ := hex
        have hgrest : g ∈ rest := by
          rcases List.mem_cons.mp hg with rfl | h
          · rcases hmiss with h' | h'
            · rw [hsrc'] at h'; exact absurd h' (by simp)
            · rw [hdst'] at h'; exact absurd h' (by simp)
          · exact h
        have hgf : g ≠ f := by
          intro hc
          exact (List.nodup_cons.mp hnd).1 (hc ▸ hgrest)
        have hne1 : dd ++ [imagesName, g] ≠ dstAssetPath w.cwd f := by
          rw [dstAssetPath_snoc,
            show dd ++ [imagesName, g] = (dd ++ [imagesName]) ++ [g] from by simp]
          exact snoc_ne_of_last_ne hgf
        have hne2 : dstAssetPath w.cwd g ≠ dstAssetPath w.cwd f := by
          rw [dstAssetPath_snoc, dstAssetPath_snoc]
          exact snoc_ne_of_last_ne hgf
        have hcwd' : (copyfile (dd ++ [imagesName, f]) (dstAssetPath w.cwd f) w).cwd
            = w.cwd := copyfile_cwd _ _ _
        have hmiss' : pathExists (dd ++ [imagesName, g])
              (copyfile (dd ++ [imagesName, f]) (dstAssetPath w.cwd f) w) = false ∨
            pathExists (dstAssetPath
                (copyfile (dd ++ [imagesName, f]) (dstAssetPath w.cwd f) w).cwd g)
              (copyfile (dd ++ [imagesName, f]) (dstAssetPath w.cwd f) w) = false := by
          rcases hmiss with h' | h'
          · left
            rw [pathExists_copyfile_ne _ _ _ hne1]
            exact h'
          · right
            rw [hcwd', pathExists_copyfile_ne _ _ _ hne2]
            exact h'
        obtain ⟨p, herr, hmissp, g2, hg2, hform⟩ :=
          ih (copyfile (dd ++ [imagesName, f]) (dstAssetPath w.cwd f) w)
            (List.nodup_cons.mp hnd).2 ⟨g, hgrest, hmiss'⟩
        refine ⟨p, herr, ?_, g2, List.mem_cons_of_mem f hg2, ?_⟩
        · by_cases hpd : p = dstAssetPath w.cwd f
          · subst hpd
            exfalso
            revert hmissp
            unfold copyfile
            cases hgf' : getFile w (dd ++ [imagesName, f]) with
            | none =>
              intro hmissp
              rw [hmissp] at hdst'
              exact absurd hdst' (by simp)
            | some c =>
              intro hmissp
              rw [pathExists_writeFile_self] at hmissp
              exact absurd hmissp (by simp)
          · rw [pathExists_copyfile_ne _ _ _ hpd] at hmissp
            exact hmissp
        · rcases hform with h' | h'
          · exact Or.inl h'
          · right
            rw [← hcwd']
            exact h'

/-- C2: with `app.yaml` present and the per-application deploy-data
directory in place, if any of the three override assets is missing at
its source path, or a destination path is missing inside the release
copy, `preprocess_release` raises an exception naming a genuinely
missing path, and the scoped block records no build, test or publish
command invocation. -/
theorem c2_missing_asset_aborts (app relName : Str) (t : DT) (oracle : Cmd → Bool)
    (w : World) (c0 : Str)
    (hyaml : getFile w (yamlPath w.cwd) = some c0)
    (hdd : deployDataPath w.cwd app ∈ w.dirs)
    (hmiss : ∃ f ∈ splashPageFiles,
      pathExists (srcAssetPath w.cwd app f) w = false ∨
      pathExists (dstAssetPath w.cwd f) w = false) :
    (∃ p, ((preprocess_release app w).2 = some (Err.missingSrc p) ∨
           (preprocess_release app w).2 = some (Err.missingDst p)) ∧
      pathExists p w = false) ∧
    (insideRelease app relName t oracle w).1.events = w.events := by
  have hsplashYaml : ∀ f ∈ splashPageFiles, f ≠ appYamlName := by decide
  have hsrc_ne_yaml : ∀ f ∈ splashPageFiles,
      srcAssetPath w.cwd app f ≠ yamlPath w.cwd := by
    intro f hf
    rw [srcAssetPath_snoc]
    show (deployDataPath w.cwd app ++ [imagesName]) ++ [f] ≠ w.cwd ++ [appYamlName]
    exact snoc_ne_of_last_ne (hsplashYaml f hf)
  have hdst_ne_yaml : ∀ f ∈ splashPageFiles,
      dstAssetPath w.cwd f ≠ yamlPath w.cwd := by
    intro f hf
    rw [dstAssetPath_snoc]
    show (w.cwd ++ [staticName, imagesName]) ++ [f] ≠ w.cwd ++ [appYamlName]
    exact snoc_ne_of_last_ne (hsplashYaml f hf)
  have hA : ∃ p, ((preprocess_release app w).2 = some (Err.missingSrc p) ∨
      (preprocess_release app w).2 = some (Err.missingDst p)) ∧
      pathExists p w = false := by
    unfold preprocess_release
    rw [hyaml]
    dsimp only
    have hddw2 : pathExists (deployDataPath
        (writeFile (yamlPath w.cwd) (pyReplace oppiaserverTok app c0)
          (removeFile (yamlPath w.cwd) w)).cwd app)
        (writeFile (yamlPath w.cwd) (pyReplace oppiaserverTok app c0)
          (removeFile (yamlPath w.cwd) w)) = true := by
      apply pathExists_of_mem_dirs
      show deployDataPath w.cwd app ∈ w.dirs
      exact hdd
    rw [if_neg (by simp [hddw2])]
    have htrans : ∀ q, q ≠ yamlPath w.cwd →
        pathExists q (writeFile (yamlPath w.cwd)
          (pyReplace oppiaserverTok app c0) (removeFile (yamlPath w.cwd) w))
        = pathExists q w := by
      intro q hqy
      rw [pathExists_writeFile_ne _ _ hqy, pathExists_removeFile_ne _ hqy]
    obtain ⟨p, herr, hmissp, g2, hg2, hform⟩ :=
      copyAssetsLoop_missing (deployDataPath w.cwd app) splashPageFiles
        (writeFile (yamlPath w.cwd) (pyReplace oppiaserverTok app c0)
          (removeFile (yamlPath w.cwd) w))
        (by decide)
        (by
          obtain ⟨f, hf, hm⟩ := hmiss
          refine ⟨f, hf, ?_⟩
          rcases hm with h' | h'
          · left
            rw [show (deployDataPath w.cwd app ++ [imagesName, f])
                = srcAssetPath w.cwd app f from rfl]
            rw [htrans _ (hsrc_ne_yaml f hf)]
            exact h'
          · right
            rw [show (writeFile (yamlPath w.cwd)
                (pyReplace oppiaserverTok app c0)
                (removeFile (yamlPath w.cwd) w)).cwd = w.cwd from rfl]
            rw [htrans _ (hdst_ne_yaml f hf)]
            exact h')
    refine ⟨p, herr, ?_⟩
    have hpy : p ≠ yamlPath w.cwd := by
      rcases hform with h' | h'
      · rw [h']
        exact hsrc_ne_yaml g2 hg2
      · rw [h']
        exact hdst_ne_yaml g2 hg2
    rw [htrans _ hpy] at hmissp
    exact hmissp
  refine ⟨hA, ?_⟩
  unfold insideRelease
  by_cases hck : (!cwdEndsWith relName w.cwd) = true
  · rw [if_pos hck]
  · rw [if_neg hck]
    rcases hpre : preprocess_release app w with ⟨wp, e⟩
    cases e with
    | some err =>
      simp only [seqE]
      have h := preprocess_release_events app w
      rw [hpre] at h
      exact h
    | none =>
      exfalso
      obtain ⟨p, herr, _⟩ := hA
      rcases herr with h' | h' <;> rw [hpre] at h' <;> exact absurd h' (by simp)

/-- A world inside a release copy in which the banner source asset is
missing from the deploy-data directory. -/
def missingAssetWorld : World :=
  { cwd := ["r".toList, "rel".toList],
    dirs := [["r".toList], ["r".toList, "rel".toList],
      ["r".toList, "deploy_data".toList],
      ["r".toList, "deploy_data".toList, "myapp".toList]],
    files := [(yamlPath ["r".toList, "rel".toList], "x: oppiaserver".toList)],
    events := [] }

theorem c2_missing_asset_aborts_witness :
    getFile missingAssetWorld (yamlPath missingAssetWorld.cwd)
        = some ("x: oppiaserver".toList) ∧
    deployDataPath missingAssetWorld.cwd sampleApp ∈ missingAssetWorld.dirs ∧
    (∃ f ∈ splashPageFiles,
      pathExists (srcAssetPath missingAssetWorld.cwd sampleApp f)
          missingAssetWorld = false ∨
      pathExists (dstAssetPath missingAssetWorld.cwd f) missingAssetWorld = false) ∧
    ((∃ p, ((preprocess_release sampleApp missingAssetWorld).2
            = some (Err.missingSrc p) ∨
          (preprocess_release sampleApp missingAssetWorld).2
            = some (Err.missingDst p)) ∧
        pathExists p missingAssetWorld = false) ∧
      (insideRelease sampleApp "rel".toList sampleT sampleOracle
          missingAssetWorld).1.events = missingAssetWorld.events) :=
  ⟨by decide, by decide, by decide,
    c2_missing_asset_aborts sampleApp "rel".toList sampleT sampleOracle
      missingAssetWorld "x: oppiaserver".toList (by decide) (by decide) (by decide)⟩

/-- An application identifier that itself contains the placeholder
token. -/
def cexApp : Str := "xoppiaserver".toList

/-- A world (inside the release copy) on which `preprocess_release`
with `cexApp` runs to completion. -/
def cexWorld : World :=
  { cwd := ["r".toList, "rel".toList],
    dirs := [["r".toList], ["r".toList, "rel".toList],
      ["r".toList, "deploy_data".toList],
      ["r".toList, "deploy_data".toList, "xoppiaserver".toList],
      ["r".toList, "deploy_data".toList, "xoppiaserver".toList, "images".toList]],
    files := [
      (yamlPath ["r".toList, "rel".toList], "a: oppiaserver".toList),
      (["r".toList, "deploy_data".toList, "xoppiaserver".toList, "images".toList,
        "banner.png".toList], "B".toList),
      (["r".toList, "deploy_data".toList, "xoppiaserver".toList, "images".toList,
        "favicon.ico".toList], "F".toList),
      (["r".toList, "deploy_data".toList, "xoppiaserver".toList, "images".toList,
        "logo.png".toList], "L".toList),
      (["r".toList, "rel".toList, "static".toList, "images".toList,
        "banner.png".toList], "b".toList),
      (["r".toList, "rel".toList, "static".toList, "images".toList,
        "favicon.ico".toList], "f".toList),
      (["r".toList, "rel".toList, "static".toList, "images".toList,
        "logo.png".toList], "l".toList)],
    events := [] }

/-- C1 as stated is false: with the application identifier
`xoppiaserver` and a configuration document containing the placeholder,
preprocessing completes and the rewritten document still contains an
occurrence of `oppiaserver`. -/
theorem c1_counterexample :
    hasOccur oppiaserverTok ("a: oppiaserver".toList) = true ∧
    cexApp ≠ [] ∧
    (preprocess_release cexApp cexWorld).2 = none ∧
    getFile (preprocess_release cexApp cexWorld).1 (yamlPath cexWorld.cwd)
      = some ("a: xoppiaserver".toList) ∧
    hasOccur oppiaserverTok ("a: xoppiaserver".toList) = true := by
  decide

/-- C1 (amended): for every application identifier that is
junction-safe for the placeholder token — the token does not occur in
the identifier, the identifier does not occur in the token, and no
nonempty end of the identifier overlaps a beginning of the token nor
vice versa — and every configuration-document text, the rewritten
`app.yaml` is exactly the original's placeholder-free segments rejoined
with the identifier in every position the placeholder previously
occupied (rest of the text unchanged), it contains zero occurrences of
the placeholder, and, when the original contained the placeholder, the
identifier occurs in the rewritten text. -/
theorem c1_placeholder_replacement (app : Str) (w : World) (c0 : Str)
    (hyaml : getFile w (yamlPath w.cwd) = some c0)
    (hsafe : junctionSafe oppiaserverTok app = true) :
    ∃ c1, getFile (preprocess_release app w).1 (yamlPath w.cwd) = some c1 ∧
      c1 = pyReplace oppiaserverTok app c0 ∧
      c0 = joinBy oppiaserverTok (splitTok oppiaserverTok c0.length c0) ∧
      c1 = joinBy app (splitTok oppiaserverTok c0.length c0) ∧
      (∀ g ∈ splitTok oppiaserverTok c0.length c0,
        hasOccur oppiaserverTok g = false) ∧
      hasOccur oppiaserverTok c1 = false ∧
      (hasOccur oppiaserverTok c0 = true → hasOccur app c1 = true) := by
  have hpat : (oppiaserverTok : Str) ≠ [] := by decide
  have hS := junctionSafe_safe hsafe
  exact ⟨pyReplace oppiaserverTok app c0,
    preprocess_release_yaml app w c0 hyaml, rfl,
    (joinBy_splitTok_orig hpat c0.length c0).symm,
    (joinBy_splitTok_replaced app c0.length c0).symm,
    splitTok_segments_free hpat c0.length c0 le_rfl,
    pyReplace_no_occur hS hpat c0,
    fun hocc => pyReplaceAux_rep_occurs hpat c0.length c0 le_rfl hocc⟩

theorem c1_placeholder_replacement_witness :
    getFile missingAssetWorld (yamlPath missingAssetWorld.cwd)
        = some ("x: oppiaserver".toList) ∧
    junctionSafe oppiaserverTok sampleApp = true ∧
    (∃ c1, getFile (preprocess_release sampleApp missingAssetWorld).1
          (yamlPath missingAssetWorld.cwd) = some c1 ∧
      c1 = pyReplace oppiaserverTok sampleApp ("x: oppiaserver".toList) ∧
      "x: oppiaserver".toList = joinBy oppiaserverTok
        (splitTok oppiaserverTok ("x: oppiaserver".toList).length
          ("x: oppiaserver".toList)) ∧
      c1 = joinBy sampleApp
        (splitTok oppiaserverTok ("x: oppiaserver".toList).length
          ("x: oppiaserver".toList)) ∧
      (∀ g ∈ splitTok oppiaserverTok ("x: oppiaserver".toList).length
          ("x: oppiaserver".toList), hasOccur oppiaserverTok g = false) ∧
      hasOccur oppiaserverTok c1 = false ∧
      (hasOccur oppiaserverTok ("x: oppiaserver".toList) = true →
        hasOccur sampleApp c1 = true)) :=
  ⟨by decide, by decide,
    c1_placeholder_replacement sampleApp missingAssetWorld
      ("x: oppiaserver".toList) (by decide) (by decide)⟩
